import Mathlib

/-!
Shallow embedding of the duplicate-type-declaration detector (TypeHunt):
the shape normalizer (`normalizeShape` in `src/analyzer.ts` together with the
string utilities of `src/utils.ts`), the declaration extractor
(`collectDeclarations`, `collectReExportRecords`), the grouping engine
(`groupBy`, `filterDuplicateGroups`) and the CLI argument reader
(`parseArgs` in `src/args.ts`).

Strings are modelled as Lean `String`/`List Char`; the JavaScript regular
expressions used by the source are modelled by explicit scanning functions
that reproduce their leftmost-match semantics on the character list.
JS `\s`/`\w` classes and `trim` are modelled over their ASCII parts (all
inputs appearing in the specification are ASCII), and a JS string's
`.length`/`.slice` (UTF-16 units) coincide with character counts on such
inputs.
-/

namespace TypeHunt

/-- Character class of the JS regex `\w`, i.e. `[A-Za-z0-9_]`.
Note `$` is a legal identifier character in TypeScript but is not a word
character for `\b`. -/
def isWordChar (c : Char) : Bool :=
  ('a' ≤ c && c ≤ 'z') || ('A' ≤ c && c ≤ 'Z') || ('0' ≤ c && c ≤ '9') || c == '_'

/-- Character class of the JS regex `\s` (ASCII part: space, tab, line feed,
carriage return, vertical tab, form feed). -/
def isWsChar (c : Char) : Bool :=
  c == ' ' || c == '\t' || c == '\n' || c == '\r' || c == '\x0b' || c == '\x0c'

/-- Wordness of an optional character; a position outside the string counts
as non-word for `\b`. -/
def optWord : Option Char → Bool
  | none => false
  | some c => isWordChar c

/-- State of the block-comment scan: outside any comment; just after a `/`
that may open a comment; inside a comment (`acc` holds the characters of the
candidate match so far, reversed, in case it never closes); inside a comment
just after a `*` that may close it. -/
inductive BlockScan where
  | outside
  | seenSlash
  | inside (acc : List Char)
  | insideStar (acc : List Char)

/-- Model of `text.replace(/\/\*[\s\S]*?\*\//g, " ")` as a left-to-right
scan: each leftmost `/*` paired with the nearest following `*/` (non-greedy)
is replaced by a single space; an unclosed `/*` matches nothing and the
candidate text is emitted verbatim (no `*/` follows it, so no later `/*`
can match either). -/
def stripBlockAux : BlockScan → List Char → List Char
  | .outside, [] => []
  | .seenSlash, [] => ['/']
  | .inside acc, [] => acc.reverse
  | .insideStar acc, [] => acc.reverse
  | .outside, c :: rest =>
    if c = '/' then stripBlockAux .seenSlash rest
    else c :: stripBlockAux .outside rest
  | .seenSlash, c :: rest =>
    if c = '*' then stripBlockAux (.inside ['*', '/']) rest
    else if c = '/' then '/' :: stripBlockAux .seenSlash rest
    else '/' :: c :: stripBlockAux .outside rest
  | .inside acc, c :: rest =>
    if c = '*' then stripBlockAux (.insideStar ('*' :: acc)) rest
    else stripBlockAux (.inside (c :: acc)) rest
  | .insideStar acc, c :: rest =>
    if c = '/' then ' ' :: stripBlockAux .outside rest
    else if c = '*' then stripBlockAux (.insideStar ('*' :: acc)) rest
    else stripBlockAux (.inside (c :: acc)) rest

/-- Strip block comments (scan from the outside state). -/
def stripBlockComments (l : List Char) : List Char :=
  stripBlockAux .outside l

/-- State of the line-comment scan: outside a comment, just after a `/`
that may open one, or inside a comment (skipping to the end of line). -/
inductive LineScan where
  | outside
  | seenSlash
  | inComment

/-- Model of `.replace(/\/\/.*$/gm, " ")` as a left-to-right scan: each `//`
together with the rest of its line is replaced by a single space; the line
terminator itself is not consumed (`.` does not match a line terminator and
`$` is zero-width). -/
def stripLineAux : LineScan → List Char → List Char
  | .outside, [] => []
  | .seenSlash, [] => ['/']
  | .inComment, [] => []
  | .outside, c :: rest =>
    if c = '/' then stripLineAux .seenSlash rest
    else c :: stripLineAux .outside rest
  | .seenSlash, c :: rest =>
    if c = '/' then ' ' :: stripLineAux .inComment rest
    else '/' :: c :: stripLineAux .outside rest
  | .inComment, c :: rest =>
    if c = '\n' ∨ c = '\r' then c :: stripLineAux .outside rest
    else stripLineAux .inComment rest

/-- Strip line comments (scan from the outside state). -/
def stripLineComments (l : List Char) : List Char :=
  stripLineAux .outside l

/-- Model of `.replace(/\s+/g, " ")` as a scan: every maximal run of
whitespace is replaced by a single space (`prevWs` records whether the
previous character was whitespace, i.e. whether a run is already open). -/
def collapseWsAux : Bool → List Char → List Char
  | _, [] => []
  | prevWs, c :: rest =>
    if isWsChar c then
      if prevWs then collapseWsAux true rest
      else ' ' :: collapseWsAux true rest
    else c :: collapseWsAux false rest

/-- Collapse whitespace runs (scan with no run open). -/
def collapseWs (l : List Char) : List Char :=
  collapseWsAux false l

/-- Model of `String.prototype.trim` (ASCII whitespace). -/
def trimWs (l : List Char) : List Char :=
  ((l.dropWhile isWsChar).reverse.dropWhile isWsChar).reverse

/-- Source: `normalizeWhitespace` in `src/utils.ts` — strip block comments,
strip line comments, collapse whitespace runs, trim. -/
def normalizeWhitespace (text : String) : String :=
  String.mk (trimWs (collapseWs (stripLineComments (stripBlockComments text.data))))

/-- Source: `escapeRegExp` in `src/utils.ts` — prefix every regex
metacharacter with a backslash. -/
def escapeRegExp (value : String) : String :=
  String.mk (value.data.flatMap (fun c =>
    if c ∈ ['.', '*', '+', '?', '^', '$', '\x7b', '\x7d', '(', ')', '|', '[', ']', '\\']
    then ['\\', c] else [c]))

/-- The placeholder substituted for the declaration name. -/
def namePlaceholder : List Char := "__NAME__".data

/-- Model of `compact.replace(new RegExp("\\b" + escapeRegExp(name) + "\\b", "g"), "__NAME__")`:
scan left to right; at each position, if the literal `name` (the escaping
makes the regex match it literally) occurs with a word boundary on both
sides, replace it by the placeholder and continue after it (global,
non-overlapping), else copy one character.  `prevW` is the wordness of the
previous character.  After a replacement the previous character is `_`,
which is a word character. -/
def replaceNameAux (name : List Char) : Nat → Bool → List Char → List Char
  | _, _, [] => []
  | skip + 1, _, c :: rest => replaceNameAux name skip (isWordChar c) rest
  | 0, prevW, c :: rest =>
    if name ≠ [] ∧ name.isPrefixOf (c :: rest)
        ∧ (prevW != isWordChar c)
        ∧ (optWord name.getLast? != optWord ((c :: rest).drop name.length).head?) then
      namePlaceholder ++ replaceNameAux name (name.length - 1) (isWordChar c) rest
    else
      c :: replaceNameAux name 0 (isWordChar c) rest

/-- Step 3 of `normalizeShape`: replace every whole-word occurrence of the
declaration name with `__NAME__`.  TypeScript identifiers are nonempty; the
empty-name guard only makes the model total. -/
def replaceName (name : String) (s : String) : String :=
  if name.data.isEmpty then s else String.mk (replaceNameAux name.data 0 false s.data)

/-- Match a literal at the head of the list, returning the remainder. -/
def dropLit : List Char → List Char → Option (List Char)
  | [], l => some l
  | p :: ps, c :: cs => if c = p then dropLit ps cs else none
  | _ :: _, [] => none

/-- Try to match `interface\s+__NAME__\s*\{` at the head of `l` (the leading
`\b` of the regex is checked by the caller); returns the remainder after the
matched `{`.  The `\s+`/`\s*` are greedy; the literals that follow them
start with non-whitespace characters, so greedy matching is maximal-run
matching. -/
def matchIfaceAt (l : List Char) : Option (List Char) :=
  match dropLit "interface".data l with
  | none => none
  | some l1 =>
    if (l1.takeWhile isWsChar).isEmpty then none
    else
      match dropLit "__NAME__".data (l1.dropWhile isWsChar) with
      | none => none
      | some l2 =>
        match l2.dropWhile isWsChar with
        | '\x7b' :: rest => some rest
        | _ => none

/-- Step 4 of `normalizeShape`: model of
`compact.replace(/\binterface\s+__NAME__\s*\{/, "type __NAME__ = {")` —
replace the leftmost match (non-global) and keep the rest unchanged.
`\b` before `interface` demands a non-word previous character. -/
def rewriteIfaceAux : Bool → List Char → List Char
  | _, [] => []
  | prevW, c :: rest =>
    match matchIfaceAt (c :: rest) with
    | some rem =>
      if prevW then c :: rewriteIfaceAux (isWordChar c) rest
      else "type __NAME__ = \x7b".data ++ rem
    | none => c :: rewriteIfaceAux (isWordChar c) rest

/-- String wrapper for the `interface` → `type` rewrite. -/
def rewriteIface (s : String) : String :=
  String.mk (rewriteIfaceAux false s.data)

/-- Step 5 of `normalizeShape`: model of `compact.replace(/^export\s+/, "")`. -/
def stripExportL (l : List Char) : List Char :=
  match dropLit "export".data l with
  | none => l
  | some r => if (r.takeWhile isWsChar).isEmpty then l else r.dropWhile isWsChar

/-- String wrapper for the leading-`export` strip. -/
def stripExport (s : String) : String :=
  String.mk (stripExportL s.data)

/-- Try to match `const\s+enum\b` at the head of `l` (leading `\b` checked by
the caller); returns the remainder after `enum`. -/
def matchConstEnumAt (l : List Char) : Option (List Char) :=
  match dropLit "const".data l with
  | none => none
  | some l1 =>
    if (l1.takeWhile isWsChar).isEmpty then none
    else
      match dropLit "enum".data (l1.dropWhile isWsChar) with
      | none => none
      | some l2 => if optWord l2.head? then none else some l2

/-- Step 6 of `normalizeShape`: model of
`compact.replace(/\bconst\s+enum\b/, "enum")` (non-global, leftmost match). -/
def rewriteConstEnumAux : Bool → List Char → List Char
  | _, [] => []
  | prevW, c :: rest =>
    match matchConstEnumAt (c :: rest) with
    | some rem =>
      if prevW then c :: rewriteConstEnumAux (isWordChar c) rest
      else "enum".data ++ rem
    | none => c :: rewriteConstEnumAux (isWordChar c) rest

/-- String wrapper for the `const enum` → `enum` rewrite. -/
def rewriteConstEnum (s : String) : String :=
  String.mk (rewriteConstEnumAux false s.data)

/-- Step 7 of `normalizeShape`: model of `compact.replace(/\s*;\s*$/, "")`.
The leftmost match anchored by `$` is the last `;` that is followed only by
whitespace, together with the whitespace run before it. -/
def stripTrailingSemiL (l : List Char) : List Char :=
  match l.reverse.dropWhile isWsChar with
  | ';' :: t => (t.dropWhile isWsChar).reverse
  | _ => l

/-- String wrapper for the trailing-semicolon strip. -/
def stripTrailingSemi (s : String) : String :=
  String.mk (stripTrailingSemiL s.data)

/-- Source: `normalizeShape` in `src/analyzer.ts` — the shape fingerprint:
normalize whitespace and comments, substitute the declaration name,
rewrite `interface` to `type`-alias form, strip a leading `export`,
rewrite `const enum` to `enum`, strip a trailing semicolon, in this order. -/
def normalizeShape (rawSnippet name : String) : String :=
  stripTrailingSemi (rewriteConstEnum (stripExport (rewriteIface
    (replaceName name (normalizeWhitespace rawSnippet)))))

/-- Source: `MAX_SNIPPET_LENGTH` in `src/constants.ts`. -/
def MAX_SNIPPET_LENGTH : Nat := 200

/-- Source: `formatSnippet` in `src/utils.ts` — compact, display-truncated
snippet.  The source's `maxLength` parameter defaults to
`MAX_SNIPPET_LENGTH`; callers here pass it explicitly. -/
def formatSnippet (rawSnippet : String) (maxLength : Nat) : String :=
  let compact := normalizeWhitespace rawSnippet
  if compact.length ≤ maxLength then compact
  else String.mk (compact.data.take (maxLength - 3) ++ "...".data)

-- ---------------------------------------------------------------------------
-- Grouping engine (`groupBy`, `filterDuplicateGroups` in `src/utils.ts`)
-- ---------------------------------------------------------------------------

/-- Loop body of `groupBy`: `map.get(key)` hit appends the item to the
existing bucket (`existing.push(item)`), a miss appends a fresh singleton
entry (`map.set(key, [item])` inserts at the end of the iteration order). -/
def groupStep {α : Type} (keyFn : α → String) (m : List (String × List α)) (item : α) :
    List (String × List α) :=
  if m.any (fun p => p.1 = keyFn item) then
    m.map (fun p => if p.1 = keyFn item then (p.1, p.2 ++ [item]) else p)
  else m ++ [(keyFn item, [item])]

/-- Source: `groupBy` in `src/utils.ts`.  A JS `Map` iterates its entries in
key-insertion order and `push` appends, so it is modelled as an association
list in first-seen key order whose buckets are in encounter order. -/
def groupBy {α : Type} (items : List α) (keyFn : α → String) : List (String × List α) :=
  items.foldl (groupStep keyFn) []

/-- Insert `x` into a sorted list, before the first element it sorts no
later than (so an element arriving later never jumps over a tie —
stability). -/
def insertSorted {α : Type} (le : α → α → Bool) (x : α) : List α → List α
  | [] => [x]
  | y :: ys => if le x y then x :: y :: ys else y :: insertSorted le x ys

/-- Stable sort by repeated insertion.  JS `Array.prototype.sort` is
required to be stable, and a stable sort by a consistent comparator has a
unique result, so any stable sort models it. -/
def stableSort {α : Type} (le : α → α → Bool) (l : List α) : List α :=
  l.foldr (insertSorted le) []

/-- Lexicographic (code-point) string comparison, `a ≤ b`. -/
def lexLeChars : List Char → List Char → Bool
  | [], _ => true
  | _ :: _, [] => false
  | a :: as, b :: bs => if a = b then lexLeChars as bs else decide (a < b)

/-- Three-way lexicographic comparison of collation-weight lists. -/
def cmpNatList : List Nat → List Nat → Ordering
  | [], [] => .eq
  | [], _ :: _ => .lt
  | _ :: _, [] => .gt
  | a :: as, b :: bs =>
    if a < b then .lt else if b < a then .gt else cmpNatList as bs

/-- Primary collation weight of a character under the CLDR root collation
(the collation `String.prototype.localeCompare` applies in the default
locale), restricted to ASCII: whitespace, then punctuation, then symbols,
then digits, then letters case-insensitively, in DUCET order; the remaining
C0 controls and DEL are completely ignorable (`none`).  Characters above
ASCII are placed after all ASCII by code point — they do not occur in the
program's declaration names or fingerprints. -/
def ducetPrimary (c : Char) : Option Nat :=
  if c = '\t' then some 1
  else if c = '\n' then some 2
  else if c = '\x0b' then some 3
  else if c = '\x0c' then some 4
  else if c = '\r' then some 5
  else if c = ' ' then some 6
  else if c = '_' then some 10
  else if c = '-' then some 11
  else if c = ',' then some 12
  else if c = ';' then some 13
  else if c = ':' then some 14
  else if c = '!' then some 15
  else if c = '?' then some 16
  else if c = '.' then some 17
  else if c.toNat = 39 then some 18
  else if c.toNat = 34 then some 19
  else if c = '(' then some 20
  else if c = ')' then some 21
  else if c = '[' then some 22
  else if c = ']' then some 23
  else if c = '\x7b' then some 24
  else if c = '\x7d' then some 25
  else if c = '@' then some 26
  else if c = '*' then some 27
  else if c = '/' then some 28
  else if c.toNat = 92 then some 29
  else if c = '&' then some 30
  else if c = '#' then some 31
  else if c = '%' then some 32
  else if c.toNat = 96 then some 40
  else if c = '^' then some 41
  else if c = '+' then some 42
  else if c = '<' then some 43
  else if c = '=' then some 44
  else if c = '>' then some 45
  else if c = '|' then some 46
  else if c = '~' then some 47
  else if c = '$' then some 48
  else if '0' ≤ c ∧ c ≤ '9' then some (50 + c.toNat - 48)
  else if 'a' ≤ c ∧ c ≤ 'z' then some (100 + c.toNat - 97)
  else if 'A' ≤ c ∧ c ≤ 'Z' then some (100 + c.toNat - 65)
  else if c.toNat < 128 then none
  else some (1000 + c.toNat)

/-- Tertiary (case) collation weight: lowercase letters weigh 2, uppercase 8,
everything else 2 — so at the tertiary level lowercase sorts before the
same uppercase letter, as `localeCompare` does. -/
def ducetTertiary (c : Char) : Nat :=
  if 'A' ≤ c ∧ c ≤ 'Z' then 8 else 2

/-- Primary collation key of a string (ignorable characters contribute
nothing). -/
def collPrimary (s : String) : List Nat :=
  s.data.filterMap ducetPrimary

/-- Tertiary collation key of a string (one weight per non-ignorable
character). -/
def collTertiary (s : String) : List Nat :=
  s.data.filterMap (fun c => if (ducetPrimary c).isSome then some (ducetTertiary c) else none)

/-- Model of `a.localeCompare(b) <= 0`: compare the primary keys
lexicographically, break a primary tie by the tertiary (case) keys.  For
ASCII strings a primary and tertiary tie forces equality of the
non-ignorable characters, matching `localeCompare` returning `0`. -/
def localeLe (a b : String) : Bool :=
  match cmpNatList (collPrimary a) (collPrimary b) with
  | .lt => true
  | .gt => false
  | .eq =>
    match cmpNatList (collTertiary a) (collTertiary b) with
    | .gt => false
    | _ => true

/-- Comparator of `filterDuplicateGroups`:
`(a, b) => b[1].length - a[1].length || a[0].localeCompare(b[0])` as a
"sorts no later than" test, with `localeCompare` modelled by the root
collation `localeLe` above. -/
def groupLE {α : Type} (a b : String × List α) : Bool :=
  decide (b.2.length < a.2.length)
    || (a.2.length == b.2.length && localeLe a.1 b.1)

/-- Source: `filterDuplicateGroups` in `src/utils.ts` — keep buckets of at
least `minCount` members, sort by descending count with ties by key. -/
def filterDuplicateGroups {α : Type} (groups : List (String × List α)) (minCount : Nat) :
    List (String × List α) :=
  stableSort groupLE (groups.filter (fun p => minCount ≤ p.2.length))

-- ---------------------------------------------------------------------------
-- Data model (`src/types.ts`)
-- ---------------------------------------------------------------------------

/-- Source: `DECLARATION_KINDS` in `src/types.ts`. -/
inductive DeclarationKind where
  | interface
  | type
  | enum
  | reexport
deriving DecidableEq, Repr

/-- Source: `DeclarationRecord` in `src/types.ts`. -/
structure DeclarationRecord where
  name : String
  kind : DeclarationKind
  file : String
  line : Nat
  snippet : String
  normalizedShape : String
  isReExport : Bool
  propertyCount : Nat
  propertyNames : List String
deriving DecidableEq, Repr

-- ---------------------------------------------------------------------------
-- Syntax-tree model for the extractor (`src/analyzer.ts`)
-- ---------------------------------------------------------------------------

/-- Member of an interface body or type literal: a property signature (whose
name node is mandatory in the TypeScript grammar) or any other member kind
(method signature, index signature, ...). -/
inductive TypeMember where
  | propSig (name : String)
  | otherMember
deriving DecidableEq, Repr

/-- Shape of the type on the right-hand side of a type alias, as far as the
extractor inspects it: a type literal with members, or anything else. -/
inductive AliasedType where
  | typeLiteral (members : List TypeMember)
  | otherType
deriving DecidableEq, Repr

/-- Clause of an export declaration: `export { ... }` (named exports) or
`export * as ns` (namespace export).  A bare `export * from "..."` has no
clause at all (`Option.none` below). -/
inductive ExportClause where
  | namedExports (elements : List (Option String × String))
  | namespaceExport (name : String)
deriving DecidableEq, Repr

/-- Element of a named-export clause: `(propertyName?, name)`, where `name`
is `el.name.text` — the exported (local/aliased) name the code reads — and
`propertyName` is the original name when an `as` alias is present. -/
abbrev ExportSpecifier := Option String × String

/-- Parsed syntax node as far as `collectDeclarations` inspects it.  `start`
models `node.getStart(sourceFile)` and `stop` models `node.end` (positions
into the source text, provided by the external parser, which is assumed to
have succeeded).  Every node carries the child list visited by
`ts.forEachChild`. -/
inductive TsNode where
  | interfaceDecl (name : String) (members : List TypeMember)
      (start stop : Nat) (children : List TsNode)
  | typeAliasDecl (name : String) (ty : AliasedType)
      (start stop : Nat) (children : List TsNode)
  | enumDecl (name : String) (memberNames : List String)
      (start stop : Nat) (children : List TsNode)
  | exportDecl (hasModuleSpecifier : Bool) (clause : Option ExportClause)
      (start stop : Nat) (children : List TsNode)
  | otherNode (start stop : Nat) (children : List TsNode)

/-- Start position of a node (`node.getStart(sourceFile)`). -/
def TsNode.start : TsNode → Nat
  | .interfaceDecl _ _ s _ _ => s
  | .typeAliasDecl _ _ s _ _ => s
  | .enumDecl _ _ s _ _ => s
  | .exportDecl _ _ s _ _ => s
  | .otherNode s _ _ => s

/-- End position of a node (`node.end`). -/
def TsNode.stop : TsNode → Nat
  | .interfaceDecl _ _ _ e _ => e
  | .typeAliasDecl _ _ _ e _ => e
  | .enumDecl _ _ _ e _ => e
  | .exportDecl _ _ _ e _ => e
  | .otherNode _ e _ => e

/-- Children of a node, in document order (`ts.forEachChild`). -/
def TsNode.children : TsNode → List TsNode
  | .interfaceDecl _ _ _ _ cs => cs
  | .typeAliasDecl _ _ _ _ cs => cs
  | .enumDecl _ _ _ _ cs => cs
  | .exportDecl _ _ _ _ cs => cs
  | .otherNode _ _ cs => cs

/-- Model of `sourceText.slice(start, end)` for `0 ≤ start ≤ end` (the
parser's positions); `take`/`drop` clamp just as `slice` does. -/
def jsSlice (s : String) (start stop : Nat) : String :=
  String.mk ((s.data.take stop).drop start)

/-- Model of
`sourceFile.getLineAndCharacterOfPosition(node.getStart(sourceFile)).line + 1`:
one plus the number of line breaks before the position (line breaks modelled
as `\n`). -/
def getLine (sourceText : String) (start : Nat) : Nat :=
  ((sourceText.data.take start).count '\n') + 1

/-- Model of JS `Array.prototype.sort()` on strings: ascending code-unit
comparison, stable. -/
def sortStrings (l : List String) : List String :=
  stableSort (fun a b => lexLeChars a.data b.data) l

/-- Names of the property-signature members of a member list, in document
order (the `isPropertySignature(member) && member.name` filter). -/
def propSigNames (members : List TypeMember) : List String :=
  members.filterMap (fun m => match m with
    | .propSig n => some n
    | .otherMember => none)

/-- Source: `extractPropertyNames` in `src/analyzer.ts` — property names of
an interface, of a type alias whose type is a type literal, or the member
names of an enum; always returned sorted ascending. -/
def extractPropertyNames : TsNode → List String
  | .interfaceDecl _ members _ _ _ => sortStrings (propSigNames members)
  | .typeAliasDecl _ (.typeLiteral members) _ _ _ => sortStrings (propSigNames members)
  | .typeAliasDecl _ .otherType _ _ _ => sortStrings []
  | .enumDecl _ names _ _ _ => sortStrings names
  | .exportDecl _ _ _ _ _ => sortStrings []
  | .otherNode _ _ _ => sortStrings []

/-- Source: the body of the `for (const el of statement.exportClause.elements)`
loop in `collectReExportRecords` — one record per named-export element. -/
def reExportRecordsOfStatement (sourceText relativeFile : String) :
    TsNode → List DeclarationRecord
  | .exportDecl hasModuleSpecifier clause start stop _ =>
    if !hasModuleSpecifier then []
    else
      match clause with
      | some (.namedExports els) =>
        els.map (fun el =>
          { name := el.2
            kind := .reexport
            file := relativeFile
            line := getLine sourceText start
            snippet := formatSnippet (jsSlice sourceText start stop) MAX_SNIPPET_LENGTH
            normalizedShape := normalizeShape (jsSlice sourceText start stop) el.2
            isReExport := true
            propertyCount := 0
            propertyNames := [] })
      | some (.namespaceExport _) => []
      | none => []
  | .interfaceDecl _ _ _ _ _ => []
  | .typeAliasDecl _ _ _ _ _ => []
  | .enumDecl _ _ _ _ _ => []
  | .otherNode _ _ _ => []

/-- Source: `collectReExportRecords` in `src/analyzer.ts` — scan the
top-level statements; only named-export clauses with a module specifier
produce records (`export * from "..."` has no export clause and is
ignored). -/
def collectReExportRecords (statements : List TsNode) (sourceText relativeFile : String) :
    List DeclarationRecord :=
  statements.flatMap (reExportRecordsOfStatement sourceText relativeFile)

/-- Classification step of `visit`: interface and type-alias declarations
always, enum declarations only when `includeEnums`. -/
def classify (includeEnums : Bool) : TsNode → Option (DeclarationKind × String)
  | .interfaceDecl name _ _ _ _ => some (.interface, name)
  | .typeAliasDecl name _ _ _ _ => some (.type, name)
  | .enumDecl name _ _ _ _ => if includeEnums then some (.enum, name) else none
  | .exportDecl _ _ _ _ _ => none
  | .otherNode _ _ _ => none

/-- Record pushed by `visit` for one node (empty list when the node is not a
candidate).  The `if (kind && name)` truthiness test also rejects an empty
name string. -/
def nodeRecord (sourceText relativeFile : String) (includeEnums : Bool)
    (node : TsNode) : List DeclarationRecord :=
  match classify includeEnums node with
  | some (kind, name) =>
    if name = "" then []
    else
      let snippet := jsSlice sourceText node.start node.stop
      let propertyNames := extractPropertyNames node
      [{ name := name
         kind := kind
         file := relativeFile
         line := getLine sourceText node.start
         snippet := formatSnippet snippet MAX_SNIPPET_LENGTH
         normalizedShape := normalizeShape snippet name
         isReExport := false
         propertyCount := propertyNames.length
         propertyNames := propertyNames }]
  | none => []

mutual

/-- Source: the recursive `visit` of `collectDeclarations` — emit the node's
record (if any), then recurse into the children in document order. -/
def visitNode (sourceText relativeFile : String) (includeEnums : Bool) :
    TsNode → List DeclarationRecord
  | .interfaceDecl nm ms a b cs =>
    nodeRecord sourceText relativeFile includeEnums (.interfaceDecl nm ms a b cs)
      ++ visitList sourceText relativeFile includeEnums cs
  | .typeAliasDecl nm ty a b cs =>
    nodeRecord sourceText relativeFile includeEnums (.typeAliasDecl nm ty a b cs)
      ++ visitList sourceText relativeFile includeEnums cs
  | .enumDecl nm mns a b cs =>
    nodeRecord sourceText relativeFile includeEnums (.enumDecl nm mns a b cs)
      ++ visitList sourceText relativeFile includeEnums cs
  | .exportDecl m c a b cs =>
    nodeRecord sourceText relativeFile includeEnums (.exportDecl m c a b cs)
      ++ visitList sourceText relativeFile includeEnums cs
  | .otherNode a b cs =>
    nodeRecord sourceText relativeFile includeEnums (.otherNode a b cs)
      ++ visitList sourceText relativeFile includeEnums cs

/-- Visit a list of sibling nodes in order. -/
def visitList (sourceText relativeFile : String) (includeEnums : Bool) :
    List TsNode → List DeclarationRecord
  | [] => []
  | n :: rest =>
    visitNode sourceText relativeFile includeEnums n
      ++ visitList sourceText relativeFile includeEnums rest

end

/-- Parsed source unit: the top-level statements of the source file node
(`ts.createSourceFile` is the external front end; the source-file node
itself classifies as no candidate, and `ts.forEachChild` on it visits the
statements). -/
structure SourceFileAst where
  statements : List TsNode

/-- Source: `collectDeclarations` in `src/analyzer.ts` — re-export records
of the top-level statements first, then the records found by the recursive
tree walk.  `file`/`process.cwd()` path arithmetic is summarized by the
precomputed `relativeFile`. -/
def collectDeclarations (ast : SourceFileAst) (sourceText relativeFile : String)
    (includeEnums : Bool) : List DeclarationRecord :=
  collectReExportRecords ast.statements sourceText relativeFile
    ++ visitList sourceText relativeFile includeEnums ast.statements

-- ---------------------------------------------------------------------------
-- CLI argument reading (`src/args.ts`)
-- ---------------------------------------------------------------------------

/-- Source: `MODES` in `src/types.ts`. -/
inductive Mode where
  | name
  | shape
  | both
deriving DecidableEq, Repr

/-- Source: `OUTPUT_FORMATS` in `src/types.ts`. -/
inductive OutputFormat where
  | text
  | json
  | markdown
deriving DecidableEq, Repr

/-- Source: `CliOptions` in `src/types.ts`. -/
structure CliOptions where
  root : String
  mode : Mode
  minCount : Nat
  format : OutputFormat
  outputFile : Option String
  failOnDuplicates : Bool
  tsconfig : Option String
  exclude : List String
  includeEnums : Bool
  skipReExports : Bool
  help : Bool
deriving DecidableEq, Repr

/-- Initial value of `options` in `parseArgs`. -/
def defaultOptions : CliOptions :=
  { root := "src"
    mode := .both
    minCount := 2
    format := .text
    outputFile := none
    failOnDuplicates := false
    tsconfig := none
    exclude := []
    includeEnums := true
    skipReExports := true
    help := false }

/-- Source: `readStringArg` in `src/args.ts`, phrased over the current
argument and the remaining argv: `none` when the argument does not match the
flag; otherwise the value and the argv remaining after it.  A `--flag=` with
empty value, a `--flag` at the end of argv, and a `--flag` followed by the
empty string (both falsy in JS) all throw `Missing value`. -/
def readStringArg (flag arg : String) (rest : List String) :
    Option (Except String (String × List String)) :=
  if (flag ++ "=").data.isPrefixOf arg.data then
    if String.mk (arg.data.drop (flag ++ "=").length) = "" then
      some (.error ("Missing value for " ++ flag))
    else some (.ok (String.mk (arg.data.drop (flag ++ "=").length), rest))
  else if arg = flag then
    match rest with
    | [] => some (.error ("Missing value for " ++ flag))
    | next :: rest2 =>
      if next = "" then some (.error ("Missing value for " ++ flag))
      else some (.ok (next, rest2))
  else none

/-- Decode a `--format` value (`readEnumArg` against `OUTPUT_FORMATS`). -/
def OutputFormat.ofString : String → Option OutputFormat
  | "text" => some .text
  | "json" => some .json
  | "markdown" => some .markdown
  | _ => none

/-- Decode a `--mode` value (`readEnumArg` against `MODES`). -/
def Mode.ofString : String → Option Mode
  | "name" => some .name
  | "shape" => some .shape
  | "both" => some .both
  | _ => none

/-- Model of `Number(v)` restricted to the values `parseArgs` accepts:
`some n` when the trimmed string is a (signed) decimal integer, which is the
only form of interest to `--min`; other numeric spellings (`"3.0"`,
`"0x10"`, `"1e2"`, ...) are conservatively modelled as `none` and rejected
like `NaN` — no claim depends on them. -/
def jsDecInt (v : String) : Option Int :=
  let t := (v.data.dropWhile isWsChar).reverse.dropWhile isWsChar |>.reverse
  match t with
  | [] => some 0
  | '-' :: ds => if ds ≠ [] ∧ ds.all Char.isDigit then
      some (-(String.mk ds).toNat!) else none
  | '+' :: ds => if ds ≠ [] ∧ ds.all Char.isDigit then
      some ((String.mk ds).toNat!) else none
  | ds => if ds.all Char.isDigit then some ((String.mk ds).toNat!) else none

/-- Model of `readStringArg(argv, i, "--output") ?? readStringArg(argv, i, "--out")`. -/
def readOutputArg (arg : String) (rest : List String) :
    Option (Except String (String × List String)) :=
  match readStringArg "--output" arg rest with
  | none => readStringArg "--out" arg rest
  | r => r

/-- Length bound used for the termination of `parseLoop`. -/
def readStringArg_rest_le {flag arg : String} {rest rest2 : List String}
    {v : String} (h : readStringArg flag arg rest = some (.ok (v, rest2))) :
    rest2.length ≤ rest.length := by
  unfold readStringArg at h
  split at h
  · split at h
    · exact absurd h (by simp)
    · simp at h
      obtain ⟨-, rfl⟩ := h
      exact le_refl _
  · split at h
    · split at h
      · exact absurd h (by simp)
      · split at h
        · exact absurd h (by simp)
        · simp at h
          obtain ⟨-, rfl⟩ := h.2
          simp
    · exact absurd h (by simp)

/-- Length bound used for the termination of `parseLoop`. -/
def readOutputArg_rest_le {arg : String} {rest rest2 : List String}
    {v : String} (h : readOutputArg arg rest = some (.ok (v, rest2))) :
    rest2.length ≤ rest.length := by
  unfold readOutputArg at h
  split at h
  · exact readStringArg_rest_le h
  · exact readStringArg_rest_le h

/-- Source: the `for` loop of `parseArgs`, as a recursion over the remaining
argv.  `i = result.nextIndex; continue` resumes after the consumed value,
which is exactly continuing on the `rest` returned by `readStringArg`.
Thrown `Error`s are modelled with `Except.error`. -/
def parseLoop : CliOptions → List String → Except String CliOptions
  | opts, [] => .ok opts
  | opts, arg :: rest =>
    if arg = "" then parseLoop opts rest
    else if arg = "--json" then parseLoop { opts with format := .json } rest
    else if arg = "--markdown" ∨ arg = "--md" then
      parseLoop { opts with format := .markdown } rest
    else if arg = "--help" ∨ arg = "-h" then parseLoop { opts with help := true } rest
    else if arg = "--fail-on-duplicates" then
      parseLoop { opts with failOnDuplicates := true } rest
    else if arg = "--no-enums" then parseLoop { opts with includeEnums := false } rest
    else if arg = "--include-reexports" then
      parseLoop { opts with skipReExports := false } rest
    else
      match h1 : readStringArg "--format" arg rest with
      | some (.error e) => .error e
      | some (.ok (v, rest2)) =>
        match OutputFormat.ofString v with
        | some f => parseLoop { opts with format := f } rest2
        | none => .error ("Invalid value for --format: " ++ v
            ++ ". Expected: text, json, markdown")
      | none =>
      match h2 : readStringArg "--mode" arg rest with
      | some (.error e) => .error e
      | some (.ok (v, rest2)) =>
        match Mode.ofString v with
        | some m => parseLoop { opts with mode := m } rest2
        | none => .error ("Invalid value for --mode: " ++ v
            ++ ". Expected: name, shape, both")
      | none =>
      match h3 : readOutputArg arg rest with
      | some (.error e) => .error e
      | some (.ok (v, rest2)) => parseLoop { opts with outputFile := some v } rest2
      | none =>
      match h4 : readStringArg "--root" arg rest with
      | some (.error e) => .error e
      | some (.ok (v, rest2)) => parseLoop { opts with root := v } rest2
      | none =>
      match h5 : readStringArg "--tsconfig" arg rest with
      | some (.error e) => .error e
      | some (.ok (v, rest2)) => parseLoop { opts with tsconfig := some v } rest2
      | none =>
      match h6 : readStringArg "--exclude" arg rest with
      | some (.error e) => .error e
      | some (.ok (v, rest2)) =>
        parseLoop { opts with exclude := opts.exclude ++ v.splitOn "," } rest2
      | none =>
      match h7 : readStringArg "--min" arg rest with
      | some (.error e) => .error e
      | some (.ok (v, rest2)) =>
        match jsDecInt v with
        | some n =>
          if n < 2 then .error "Invalid value for --min; expected integer >= 2"
          else parseLoop { opts with minCount := n.toNat } rest2
        | none => .error "Invalid value for --min; expected integer >= 2"
      | none => parseLoop opts rest
termination_by _ l => l.length
decreasing_by
  all_goals simp
  all_goals
    first
    | (have hle : _ := readStringArg_rest_le h1; omega)
    | (have hle : _ := readStringArg_rest_le h2; omega)
    | (have hle : _ := readOutputArg_rest_le h3; omega)
    | (have hle : _ := readStringArg_rest_le h4; omega)
    | (have hle : _ := readStringArg_rest_le h5; omega)
    | (have hle : _ := readStringArg_rest_le h6; omega)
    | (have hle : _ := readStringArg_rest_le h7; omega)

/-- Source: `parseArgs` in `src/args.ts`. -/
def parseArgs (argv : List String) : Except String CliOptions :=
  parseLoop defaultOptions argv

-- ---------------------------------------------------------------------------
-- Specification vocabulary: word chunks, whole-word occurrences, substrings
-- ---------------------------------------------------------------------------

/-- Maximal runs of word characters of a string, in order.  A whole-word
occurrence of an all-word-character name is exactly a chunk equal to it. -/
def wordChunks : List Char → List (List Char)
  | [] => []
  | c :: rest =>
    if isWordChar c then
      (c :: rest.takeWhile isWordChar) :: wordChunks (rest.dropWhile isWordChar)
    else wordChunks rest
termination_by l => l.length
decreasing_by
  · have : (rest.dropWhile isWordChar).length ≤ rest.length :=
      (List.dropWhile_sublist isWordChar).length_le
    simp; omega
  · simp

/-- A whole-word occurrence of `name` in `l`: `name` occurs as a substring
and the characters adjacent to the occurrence (when they exist) are
non-word characters — the `\b…\b` match condition for an all-word-character
`name`. -/
def WholeWordOccurs (name l : List Char) : Prop :=
  ∃ pre post, l = pre ++ name ++ post
    ∧ (pre.getLast?.all (fun c => !isWordChar c)) = true
    ∧ (post.head?.all (fun c => !isWordChar c)) = true

/-- Number of positions of `l` at which `pat` occurs as a substring
(overlapping occurrences counted separately; the patterns used below cannot
overlap themselves). -/
def countSubstr (pat : List Char) : List Char → Nat
  | [] => 0
  | c :: rest => (if pat.isPrefixOf (c :: rest) then 1 else 0) + countSubstr pat rest

/-- Specification-side chunk-wise name replacement: copy non-word characters,
replace each maximal word run equal to `name` by the placeholder, copy every
other run.  `replaceNameAux` (the model of the source regex replace) is proved
equal to it below, which reduces whole-word reasoning to chunk reasoning. -/
def replaceChunks (name : List Char) : List Char → List Char
  | [] => []
  | c :: rest =>
    if isWordChar c then
      (if c :: rest.takeWhile isWordChar = name then namePlaceholder
       else c :: rest.takeWhile isWordChar)
        ++ replaceChunks name (rest.dropWhile isWordChar)
    else c :: replaceChunks name rest
termination_by l => l.length
decreasing_by
  · have : (rest.dropWhile isWordChar).length ≤ rest.length :=
      (List.dropWhile_sublist isWordChar).length_le
    simp; omega
  · simp

/-- Whether the two-character sequence `c1 c2` occurs in the list (used to
state absence of the comment openers `/*` and `//`). -/
def hasTwo (c1 c2 : Char) : List Char → Bool
  | a :: b :: rest => (a == c1 && b == c2) || hasTwo c1 c2 (b :: rest)
  | _ => false

mutual

/-- Whether the subtree contains an enum declaration with a nonempty name
(the only enums for which `visit` can emit a record). -/
def hasNamedEnum : TsNode → Bool
  | .enumDecl name _ _ _ cs => decide (name ≠ "") || hasNamedEnumList cs
  | .interfaceDecl _ _ _ _ cs => hasNamedEnumList cs
  | .typeAliasDecl _ _ _ _ cs => hasNamedEnumList cs
  | .exportDecl _ _ _ _ cs => hasNamedEnumList cs
  | .otherNode _ _ cs => hasNamedEnumList cs

/-- List version of `hasNamedEnum`. -/
def hasNamedEnumList : List TsNode → Bool
  | [] => false
  | n :: rest => hasNamedEnum n || hasNamedEnumList rest

end

-- ---------------------------------------------------------------------------
-- Specification vocabulary: recognized argv tokens
-- ---------------------------------------------------------------------------

/-- The boolean flags of `parseArgs`. -/
def boolFlagTokens : List String :=
  ["--json", "--markdown", "--md", "--help", "-h",
   "--fail-on-duplicates", "--no-enums", "--include-reexports"]

/-- The flags of `parseArgs` that take a value. -/
def valueFlagTokens : List String :=
  ["--format", "--mode", "--output", "--out", "--root", "--tsconfig",
   "--exclude", "--min"]

/-- Whether a token is an occurrence of a value-taking flag, in either of
the two spellings `--flag` and `--flag=...` accepted by `readStringArg`. -/
def isValueFlagToken (t : String) : Bool :=
  valueFlagTokens.any (fun f => t == f || (f ++ "=").data.isPrefixOf t.data)

/-- Whether `parseArgs` recognizes the token as a flag at all. -/
def recognizedToken (t : String) : Bool :=
  boolFlagTokens.any (fun f => t == f) || isValueFlagToken t

-- ---------------------------------------------------------------------------
-- Concrete inputs used by counterexamples and witnesses
-- ---------------------------------------------------------------------------

/-- A record whose fingerprint is the empty string, as produced for an
empty snippet (`normalizeShape "" "A" = ""`, asserted in the amended C3
theorem). -/
def emptyShapeRecord1 : DeclarationRecord :=
  { name := "A", kind := .interface, file := "a.ts", line := 1,
    snippet := "", normalizedShape := "",
    isReExport := false, propertyCount := 0, propertyNames := [] }

/-- A second record with an empty fingerprint, from another file. -/
def emptyShapeRecord2 : DeclarationRecord :=
  { name := "B", kind := .type, file := "b.ts", line := 3,
    snippet := "", normalizedShape := "",
    isReExport := false, propertyCount := 0, propertyNames := [] }

/-- Source text of the re-export example of the specification. -/
def reExportSourceText : String :=
  "export \x7b Foo, Bar \x7d from \"./m\";"

/-- Parsed form of `export { Foo, Bar } from "./m";`: a named-export clause
with a module specifier; the statement span excludes the trailing `;`
(which belongs to the statement in the TS grammar — `statement.end` is
after it; the span below covers the full statement text including it). -/
def reExportAst : SourceFileAst :=
  { statements := [.exportDecl true
      (some (.namedExports [(none, "Foo"), (none, "Bar")])) 0 31 []] }

/-- Source text of a wildcard re-export. -/
def wildcardSourceText : String :=
  "export * from \"./m\";"

/-- Parsed form of `export * from "./m";`: a module specifier but no export
clause. -/
def wildcardAst : SourceFileAst :=
  { statements := [.exportDecl true none 0 20 []] }

/-- Source text of an aliased re-export. -/
def aliasSourceText : String :=
  "export \x7b Foo as Baz \x7d from \"./m\";"

/-- Parsed form of `export { Foo as Baz } from "./m";` — the element's
`name` is the alias `Baz`, its `propertyName` the original `Foo`. -/
def aliasAst : SourceFileAst :=
  { statements := [.exportDecl true
      (some (.namedExports [(some "Foo", "Baz")])) 0 33 []] }

/-- An interface whose source span is longer than `MAX_SNIPPET_LENGTH`
(227 characters), to exercise display truncation. -/
def longSourceText : String :=
  "interface Wide \x7b alphaalphaalpha: string; betabetabeta: string; gammagammagamma: string; deltadeltadelta: string; epsilonepsilon: string; zetazetazeta: string; etaetaeta: string; thetathetatheta: string; iotaiotaiota: string; \x7d"

/-- Parsed form of `longSourceText`: one interface declaration spanning the
whole text. -/
def longAst : SourceFileAst :=
  { statements := [.interfaceDecl "Wide"
      [.propSig "alphaalphaalpha", .propSig "betabetabeta",
       .propSig "gammagammagamma", .propSig "deltadeltadelta",
       .propSig "epsilonepsilon", .propSig "zetazetazeta",
       .propSig "etaetaeta", .propSig "thetathetatheta",
       .propSig "iotaiotaiota"]
      0 longSourceText.length []] }

/-- Source text with one enum declaration. -/
def enumSourceText : String :=
  "enum Color \x7b Red, Green, Blue \x7d"

/-- Parsed form of `enumSourceText`. -/
def enumAst : SourceFileAst :=
  { statements := [.enumDecl "Color" ["Red", "Green", "Blue"] 0 31 []] }

-- ===========================================================================
-- Lemmas about the grouping engine
-- ===========================================================================

theorem groupStep_inv {α : Type} (keyFn : α → String) (seen : List α) (item : α)
    (m : List (String × List α))
    (hval : ∀ p ∈ m, p.2 = seen.filter (fun i => keyFn i = p.1))
    (hkey : ∀ k, (∃ p ∈ m, p.1 = k) ↔ ∃ i ∈ seen, keyFn i = k)
    (hpw : m.Pairwise (fun p q => p.1 ≠ q.1)) :
    (∀ p ∈ groupStep keyFn m item,
        p.2 = (seen ++ [item]).filter (fun i => keyFn i = p.1))
    ∧ (∀ k, (∃ p ∈ groupStep keyFn m item, p.1 = k) ↔ ∃ i ∈ seen ++ [item], keyFn i = k)
    ∧ (groupStep keyFn m item).Pairwise (fun p q => p.1 ≠ q.1) := by
  unfold groupStep
  have hfst : ∀ q : String × List α,
      (if q.1 = keyFn item then (q.1, q.2 ++ [item]) else q).1 = q.1 := by
    intro q; split <;> rfl
  by_cases hany : ∃ p ∈ m, p.1 = keyFn item
  · rw [if_pos (by simpa using hany)]
    refine ⟨?_, ?_, ?_⟩
    · intro p hp
      obtain ⟨q, hq, rfl⟩ := List.mem_map.mp hp
      by_cases hqk : q.1 = keyFn item
      · simp only [if_pos hqk, List.filter_append]
        rw [← hval q hq]
        simp [← hqk]
      · simp only [if_neg hqk, List.filter_append]
        rw [← hval q hq]
        simp
        intro hk
        exact absurd hk.symm hqk
    · intro k
      have hiff : (∃ p ∈ m.map (fun p => if p.1 = keyFn item then (p.1, p.2 ++ [item]) else p),
          p.1 = k) ↔ ∃ q ∈ m, q.1 = k := by
        simp only [List.mem_map]
        constructor
        · rintro ⟨p, ⟨q, hq, rfl⟩, hk⟩
          rw [hfst q] at hk
          exact ⟨q, hq, hk⟩
        · rintro ⟨q, hq, rfl⟩
          exact ⟨_, ⟨q, hq, rfl⟩, hfst q⟩
      rw [hiff, hkey k]
      constructor
      · rintro ⟨i, hi, rfl⟩
        exact ⟨i, by simp [hi], rfl⟩
      · rintro ⟨i, hi, rfl⟩
        rcases List.mem_append.mp hi with hl | hr
        · exact ⟨i, hl, rfl⟩
        · simp at hr
          subst hr
          exact (hkey (keyFn i)).mp hany
    · rw [List.pairwise_map]
      refine hpw.imp ?_
      intro p q hpq
      rw [hfst p, hfst q]
      exact hpq
  · rw [if_neg (by simpa using hany)]
    push_neg at hany
    refine ⟨?_, ?_, ?_⟩
    · intro p hp
      rcases List.mem_append.mp hp with hl | hr
      · have hpk : p.1 ≠ keyFn item := fun h => hany p hl h
        rw [List.filter_append, ← hval p hl]
        simp
        intro hk
        exact absurd hk.symm hpk
      · simp at hr
        subst hr
        simp only [List.filter_append]
        have hnil : seen.filter (fun i => decide (keyFn i = keyFn item)) = [] := by
          rw [List.filter_eq_nil_iff]
          intro i hi
          simp
          intro hik
          obtain ⟨p, hp, hpk⟩ := (hkey (keyFn item)).mpr ⟨i, hi, hik⟩
          exact hany p hp hpk
        simp [hnil]
    · intro k
      constructor
      · rintro ⟨p, hp, rfl⟩
        rcases List.mem_append.mp hp with hl | hr
        · obtain ⟨i, hi, hik⟩ := (hkey p.1).mp ⟨p, hl, rfl⟩
          exact ⟨i, by simp [hi], hik⟩
        · simp at hr
          subst hr
          exact ⟨item, by simp, rfl⟩
      · rintro ⟨i, hi, rfl⟩
        rcases List.mem_append.mp hi with hl | hr
        · obtain ⟨p, hp, hpk⟩ := (hkey (keyFn i)).mpr ⟨i, hl, rfl⟩
          exact ⟨p, List.mem_append.mpr (Or.inl hp), hpk⟩
        · simp at hr
          subst hr
          exact ⟨(keyFn i, [i]), by simp⟩
    · rw [List.pairwise_append]
      refine ⟨hpw, by simp, ?_⟩
      intro p hp q hq
      simp at hq
      subst hq
      simp
      exact fun h => hany p hp h

theorem groupBy_loop_inv {α : Type} (keyFn : α → String) :
    ∀ (items : List α) (m : List (String × List α)) (seen : List α),
    (∀ p ∈ m, p.2 = seen.filter (fun i => keyFn i = p.1)) →
    (∀ k, (∃ p ∈ m, p.1 = k) ↔ ∃ i ∈ seen, keyFn i = k) →
    m.Pairwise (fun p q => p.1 ≠ q.1) →
    (∀ p ∈ items.foldl (groupStep keyFn) m,
        p.2 = (seen ++ items).filter (fun i => keyFn i = p.1))
    ∧ (∀ k, (∃ p ∈ items.foldl (groupStep keyFn) m, p.1 = k) ↔
        ∃ i ∈ seen ++ items, keyFn i = k)
    ∧ (items.foldl (groupStep keyFn) m).Pairwise (fun p q => p.1 ≠ q.1) := by
  intro items
  induction items with
  | nil =>
    intro m seen h1 h2 h3
    simp only [List.foldl_nil, List.append_nil]
    exact ⟨h1, h2, h3⟩
  | cons x xs ih =>
    intro m seen h1 h2 h3
    have step := groupStep_inv keyFn seen x m h1 h2 h3
    have main := ih (groupStep keyFn m x) (seen ++ [x]) step.1 step.2.1 step.2.2
    simp only [List.foldl_cons]
    simp only [List.append_assoc, List.singleton_append] at main
    exact main

theorem groupBy_mem {α : Type} {items : List α} {keyFn : α → String}
    {p : String × List α} (hp : p ∈ groupBy items keyFn) :
    p.2 = items.filter (fun i => keyFn i = p.1) := by
  have := (groupBy_loop_inv keyFn items [] [] (by simp) (by simp) (by simp)).1
  simpa using this p (by simpa [groupBy] using hp)

theorem groupBy_key_iff {α : Type} {items : List α} {keyFn : α → String} {k : String} :
    (∃ p ∈ groupBy items keyFn, p.1 = k) ↔ ∃ i ∈ items, keyFn i = k := by
  have := (groupBy_loop_inv keyFn items [] [] (by simp) (by simp) (by simp)).2.1
  simpa [groupBy] using this k

theorem mem_insertSorted {α : Type} {le : α → α → Bool} {x a : α} :
    ∀ {l : List α}, a ∈ insertSorted le x l ↔ a = x ∨ a ∈ l := by
  intro l
  induction l with
  | nil => simp [insertSorted]
  | cons y ys ih =>
    rw [insertSorted]
    split
    · simp
    · simp [ih]
      tauto

theorem mem_stableSort {α : Type} {le : α → α → Bool} {a : α} :
    ∀ {l : List α}, a ∈ stableSort le l ↔ a ∈ l := by
  intro l
  induction l with
  | nil => simp [stableSort]
  | cons y ys ih =>
    rw [stableSort, List.foldr_cons, mem_insertSorted]
    rw [stableSort] at ih
    simp [ih]

theorem pairwise_insertSorted {α : Type} {le : α → α → Bool}
    (htot : ∀ a b, le a b || le b a)
    (htr : ∀ a b c, le a b = true → le b c = true → le a c = true) {x : α} :
    ∀ {l : List α}, l.Pairwise (fun a b => le a b = true) →
      (insertSorted le x l).Pairwise (fun a b => le a b = true) := by
  intro l
  induction l with
  | nil => simp [insertSorted]
  | cons y ys ih =>
    intro hpw
    rw [insertSorted]
    rw [List.pairwise_cons] at hpw
    split
    · next hxy =>
      rw [List.pairwise_cons]
      refine ⟨?_, List.pairwise_cons.mpr hpw⟩
      intro b hb
      rcases List.mem_cons.mp hb with rfl | hbys
      · exact hxy
      · exact htr x y b hxy (hpw.1 b hbys)
    · next hxy =>
      have hyx : le y x = true := by
        have := htot x y
        simp [hxy] at this
        exact this
      rw [List.pairwise_cons]
      refine ⟨?_, ih hpw.2⟩
      intro b hb
      rcases mem_insertSorted.mp hb with rfl | hbys
      · exact hyx
      · exact hpw.1 b hbys

theorem pairwise_stableSort {α : Type} {le : α → α → Bool}
    (htot : ∀ a b, le a b || le b a)
    (htr : ∀ a b c, le a b = true → le b c = true → le a c = true) :
    ∀ (l : List α), (stableSort le l).Pairwise (fun a b => le a b = true) := by
  intro l
  induction l with
  | nil => simp [stableSort]
  | cons y ys ih =>
    rw [stableSort, List.foldr_cons]
    rw [stableSort] at ih
    exact pairwise_insertSorted htot htr ih

theorem lexLeChars_refl : ∀ a : List Char, lexLeChars a a = true := by
  intro a
  induction a with
  | nil => simp [lexLeChars]
  | cons x xs ih => simp [lexLeChars, ih]

theorem lexLeChars_total : ∀ a b : List Char, lexLeChars a b || lexLeChars b a := by
  intro a
  induction a with
  | nil => intro b; simp [lexLeChars]
  | cons x xs ih =>
    intro b
    cases b with
    | nil => simp [lexLeChars]
    | cons y ys =>
      rw [lexLeChars, lexLeChars]
      by_cases hxy : x = y
      · subst hxy
        simpa using ih ys
      · have hyx : ¬ y = x := fun h => hxy h.symm
        simp only [if_neg hxy, if_neg hyx]
        rcases lt_trichotomy x y with h | h | h
        · simp [h]
        · exact absurd h hxy
        · simp [h]

theorem lexLeChars_trans :
    ∀ a b c : List Char, lexLeChars a b = true → lexLeChars b c = true →
      lexLeChars a c = true := by
  intro a
  induction a with
  | nil => intro b c _ _; simp [lexLeChars]
  | cons x xs ih =>
    intro b c hab hbc
    cases b with
    | nil => simp [lexLeChars] at hab
    | cons y ys =>
      cases c with
      | nil => simp [lexLeChars] at hbc
      | cons z zs =>
        rw [lexLeChars] at hab hbc ⊢
        by_cases hxy : x = y
        · subst hxy
          rw [if_pos rfl] at hab
          by_cases hyz : x = z
          · subst hyz
            rw [if_pos rfl] at hbc ⊢
            exact ih ys zs hab hbc
          · rw [if_neg hyz] at hbc ⊢
            exact hbc
        · rw [if_neg hxy] at hab
          simp at hab
          by_cases hyz : y = z
          · subst hyz
            rw [if_neg hxy]
            simp [hab]
          · rw [if_neg hyz] at hbc
            simp at hbc
            have hxz : x < z := lt_trans hab hbc
            rw [if_neg (ne_of_lt hxz)]
            simp [hxz]

theorem cmpNatList_eq_iff : ∀ {x y : List Nat}, cmpNatList x y = .eq ↔ x = y := by
  intro x
  induction x with
  | nil =>
    intro y
    cases y with
    | nil => simp [cmpNatList]
    | cons b bs => simp [cmpNatList]
  | cons a as ih =>
    intro y
    cases y with
    | nil => simp [cmpNatList]
    | cons b bs =>
      rw [cmpNatList]
      by_cases hab : a < b
      · rw [if_pos hab]
        constructor
        · intro h
          exact absurd h (by decide)
        · intro h
          injection h with h1 h2
          exact absurd h1 (Nat.ne_of_lt hab)
      · rw [if_neg hab]
        by_cases hba : b < a
        · rw [if_pos hba]
          constructor
          · intro h
            exact absurd h (by decide)
          · intro h
            injection h with h1 h2
            exact absurd h1.symm (Nat.ne_of_lt hba)
        · rw [if_neg hba]
          have hEq : a = b := by omega
          subst hEq
          rw [ih]
          constructor
          · intro h
            rw [h]
          · intro h
            injection h

theorem cmpNatList_swap : ∀ (x y : List Nat), cmpNatList y x = (cmpNatList x y).swap := by
  intro x
  induction x with
  | nil =>
    intro y
    cases y with
    | nil => rfl
    | cons b bs => rfl
  | cons a as ih =>
    intro y
    cases y with
    | nil => rfl
    | cons b bs =>
      by_cases hab : a < b
      · have hba : ¬ b < a := by omega
        rw [cmpNatList, if_neg hba, if_pos hab, cmpNatList, if_pos hab]
        rfl
      · by_cases hba : b < a
        · rw [cmpNatList, if_pos hba, cmpNatList, if_neg hab, if_pos hba]
          rfl
        · rw [cmpNatList, if_neg hba, if_neg hab, cmpNatList, if_neg hab, if_neg hba]
          exact ih bs

theorem cmpNatList_lt_trans : ∀ (x y z : List Nat),
    cmpNatList x y = .lt → cmpNatList y z = .lt → cmpNatList x z = .lt := by
  intro x
  induction x with
  | nil =>
    intro y z hxy hyz
    cases z with
    | nil =>
      cases y with
      | nil => exact absurd hyz (by decide)
      | cons b bs => exact absurd hyz (by simp [cmpNatList])
    | cons c cs => rfl
  | cons a as ih =>
    intro y z hxy hyz
    cases y with
    | nil => exact absurd hxy (by simp [cmpNatList])
    | cons b bs =>
      cases z with
      | nil => exact absurd hyz (by simp [cmpNatList])
      | cons c cs =>
        rw [cmpNatList] at hxy hyz ⊢
        by_cases hab : a < b
        · rw [if_pos hab] at hxy
          by_cases hbc : b < c
          · rw [if_pos (by omega : a < c)]
          · rw [if_neg hbc] at hyz
            by_cases hcb : c < b
            · rw [if_pos hcb] at hyz
              exact absurd hyz (by decide)
            · have hbceq : b = c := by omega
              rw [if_pos (by omega : a < c)]
        · rw [if_neg hab] at hxy
          by_cases hba : b < a
          · rw [if_pos hba] at hxy
            exact absurd hxy (by decide)
          · rw [if_neg hba] at hxy
            have habeq : a = b := by omega
            by_cases hbc : b < c
            · rw [if_pos (by omega : a < c)]
            · rw [if_neg hbc] at hyz
              by_cases hcb : c < b
              · rw [if_pos hcb] at hyz
                exact absurd hyz (by decide)
              · rw [if_neg hcb] at hyz
                have hbceq : b = c := by omega
                rw [if_neg (by omega : ¬ a < c), if_neg (by omega : ¬ c < a)]
                exact ih bs cs hxy hyz

theorem localeLe_total : ∀ a b : String, localeLe a b || localeLe b a := by
  intro a b
  have hswap := cmpNatList_swap (collPrimary a) (collPrimary b)
  have hswapt := cmpNatList_swap (collTertiary a) (collTertiary b)
  unfold localeLe
  cases hp : cmpNatList (collPrimary a) (collPrimary b) with
  | lt => simp [hp]
  | gt =>
    rw [hp] at hswap
    have hswap' : cmpNatList (collPrimary b) (collPrimary a) = .lt := by
      rw [hswap]
      rfl
    simp [hp, hswap']
  | eq =>
    rw [hp] at hswap
    have hswap' : cmpNatList (collPrimary b) (collPrimary a) = .eq := by
      rw [hswap]
      rfl
    cases ht : cmpNatList (collTertiary a) (collTertiary b) with
    | lt => simp [hp, hswap', ht]
    | gt =>
      rw [ht] at hswapt
      have hswapt' : cmpNatList (collTertiary b) (collTertiary a) = .lt := by
        rw [hswapt]
        rfl
      simp [hp, hswap', ht, hswapt']
    | eq => simp [hp, hswap', ht]

theorem localeLe_trans : ∀ a b c : String, localeLe a b = true → localeLe b c = true →
    localeLe a c = true := by
  intro a b c hab hbc
  unfold localeLe at hab hbc ⊢
  cases hpab : cmpNatList (collPrimary a) (collPrimary b) with
  | gt =>
    rw [hpab] at hab
    simp at hab
  | lt =>
    cases hpbc : cmpNatList (collPrimary b) (collPrimary c) with
    | gt =>
      rw [hpbc] at hbc
      simp at hbc
    | lt =>
      rw [cmpNatList_lt_trans _ _ _ hpab hpbc]
    | eq =>
      have heq : collPrimary b = collPrimary c := cmpNatList_eq_iff.mp hpbc
      rw [← heq, hpab]
  | eq =>
    have heqab : collPrimary a = collPrimary b := cmpNatList_eq_iff.mp hpab
    rw [hpab] at hab
    cases hpbc : cmpNatList (collPrimary b) (collPrimary c) with
    | gt =>
      rw [hpbc] at hbc
      simp at hbc
    | lt =>
      rw [heqab, hpbc]
    | eq =>
      have heqbc : collPrimary b = collPrimary c := cmpNatList_eq_iff.mp hpbc
      rw [hpbc] at hbc
      rw [heqab, hpbc]
      cases htab : cmpNatList (collTertiary a) (collTertiary b) with
      | gt =>
        rw [htab] at hab
        simp at hab
      | lt =>
        cases htbc : cmpNatList (collTertiary b) (collTertiary c) with
        | gt =>
          rw [htbc] at hbc
          simp at hbc
        | lt =>
          rw [cmpNatList_lt_trans _ _ _ htab htbc]
        | eq =>
          have ht : collTertiary b = collTertiary c := cmpNatList_eq_iff.mp htbc
          rw [← ht, htab]
      | eq =>
        have ht : collTertiary a = collTertiary b := cmpNatList_eq_iff.mp htab
        cases htbc : cmpNatList (collTertiary b) (collTertiary c) with
        | gt =>
          rw [htbc] at hbc
          simp at hbc
        | lt =>
          rw [ht, htbc]
        | eq =>
          rw [ht, htbc]

theorem groupLE_iff {α : Type} (a b : String × List α) :
    groupLE a b = true ↔
      (b.2.length < a.2.length ∨
        (a.2.length = b.2.length ∧ localeLe a.1 b.1 = true)) := by
  simp [groupLE]

theorem groupLE_total {α : Type} :
    ∀ a b : String × List α, groupLE a b || groupLE b a := by
  intro a b
  rcases Nat.lt_trichotomy a.2.length b.2.length with h | h | h
  · have : groupLE b a = true := (groupLE_iff b a).mpr (Or.inl h)
    simp [this]
  · have := localeLe_total a.1 b.1
    rcases Bool.or_eq_true_iff.mp this with hl | hr
    · have : groupLE a b = true := (groupLE_iff a b).mpr (Or.inr ⟨h, hl⟩)
      simp [this]
    · have : groupLE b a = true := (groupLE_iff b a).mpr (Or.inr ⟨h.symm, hr⟩)
      simp [this]
  · have : groupLE a b = true := (groupLE_iff a b).mpr (Or.inl h)
    simp [this]

theorem groupLE_trans {α : Type} :
    ∀ a b c : String × List α, groupLE a b = true → groupLE b c = true →
      groupLE a c = true := by
  intro a b c hab hbc
  rw [groupLE_iff] at hab hbc ⊢
  rcases hab with h1 | ⟨h1, h1l⟩ <;> rcases hbc with h2 | ⟨h2, h2l⟩
  · exact Or.inl (lt_trans h2 h1)
  · exact Or.inl (by omega)
  · exact Or.inl (by omega)
  · exact Or.inr ⟨h1.trans h2, localeLe_trans _ _ _ h1l h2l⟩

theorem mem_filterDuplicateGroups {α : Type} {groups : List (String × List α)}
    {minCount : Nat} {p : String × List α} :
    p ∈ filterDuplicateGroups groups minCount ↔
      p ∈ groups ∧ minCount ≤ p.2.length := by
  rw [filterDuplicateGroups, mem_stableSort, List.mem_filter]
  simp

-- ===========================================================================
-- C3, C4, C5: the grouping engine
-- ===========================================================================

/-- C3, counterexample: the grouping engine has no guard against the empty
fingerprint.  Grouping two records whose `normalizedShape` is `""` by
fingerprint with `minCount = 2` emits exactly one group, and its key is the
empty string — contradicting the claim that no empty-keyed group is ever
produced. -/
theorem groupBy_empty_key_counterexample :
    ((filterDuplicateGroups (groupBy [emptyShapeRecord1, emptyShapeRecord2]
        (fun r => r.normalizedShape)) 2).map Prod.fst) = [""] := by
  decide

/-- C3, amended: an empty or whitespace-only snippet does normalize to the
empty fingerprint, and the grouping engine treats the empty fingerprint like
any other key: whenever at least `minCount ≥ 2` records carry the empty
fingerprint, the output contains a group keyed by the empty string holding
exactly those records (there is no explicit guard). -/
theorem groupBy_empty_key_group (records : List DeclarationRecord) (minCount : Nat)
    (hmin : 2 ≤ minCount)
    (hcount : minCount ≤ (records.filter (fun r => r.normalizedShape = "")).length) :
    ("", records.filter (fun r => r.normalizedShape = "")) ∈
      filterDuplicateGroups (groupBy records (fun r => r.normalizedShape)) minCount
    ∧ normalizeShape "" "A" = "" ∧ normalizeShape " \n\t " "B" = "" := by
  refine ⟨?_, ?_, ?_⟩
  · have hne : records.filter (fun r => r.normalizedShape = "") ≠ [] := by
      intro hnil
      rw [hnil] at hcount
      simp at hcount
      omega
    obtain ⟨r, hr⟩ := List.exists_mem_of_ne_nil _ hne
    have hrr := List.mem_filter.mp hr
    have hkey : (∃ p ∈ groupBy records (fun r => r.normalizedShape), p.1 = "") :=
      groupBy_key_iff.mpr ⟨r, hrr.1, by simpa using hrr.2⟩
    obtain ⟨p, hp, hpk⟩ := hkey
    have hval := groupBy_mem hp
    have hpeq : p = ("", records.filter (fun r => r.normalizedShape = "")) := by
      obtain ⟨pk, pv⟩ := p
      simp only at hpk hval
      subst hpk
      simp [hval]
    rw [← hpeq]
    refine mem_filterDuplicateGroups.mpr ⟨hp, ?_⟩
    rw [hpeq]
    simpa using hcount
  · decide
  · decide

/-- C3, witness for the amended theorem at a concrete input. -/
theorem groupBy_empty_key_group_witness :
    ("", [emptyShapeRecord1, emptyShapeRecord2]) ∈
      filterDuplicateGroups (groupBy [emptyShapeRecord1, emptyShapeRecord2]
        (fun r => r.normalizedShape)) 2 := by
  have h := (groupBy_empty_key_group [emptyShapeRecord1, emptyShapeRecord2] 2
    (le_refl 2) (by decide)).1
  simpa using h

/-- C4, counterexample: the tie order is not ascending lexicographic
(code-point) order.  With the equal-count keys `"Banana"` and `"apple"`, the
engine's `localeCompare` tie-break puts `"apple"` first (letters compare
case-insensitively at the primary level), although `"Banana"` precedes
`"apple"` in code-point order — so the output's equal-count keys are not in
ascending lexicographic order. -/
theorem locale_tie_order_counterexample :
    ((filterDuplicateGroups [("Banana", ["x", "y"]), ("apple", ["u", "v"])] 2).map
        Prod.fst = ["apple", "Banana"])
    ∧ lexLeChars "apple".data "Banana".data = false := by
  decide

/-- C4, amended: the list returned by `filterDuplicateGroups` is ordered by
descending member count, with equal counts in ascending order of the
`localeCompare` collation (case-insensitive at the primary level, lowercase
before uppercase on a primary tie) — not in ascending code-point order,
which the collation violates on mixed-case keys; on the same-case keys of
the spec's example the two orders agree: a 3-member bucket precedes every
2-member bucket, and among the equal-size keys `"Alpha"` precedes
`"Beta"`. -/
theorem filterDuplicateGroups_sorted :
    (∀ (α : Type) (groups : List (String × List α)) (minCount : Nat),
      (filterDuplicateGroups groups minCount).Pairwise
        (fun a b => b.2.length < a.2.length ∨
          (a.2.length = b.2.length ∧ localeLe a.1 b.1 = true)))
    ∧ filterDuplicateGroups
        [("Beta", ["a", "b"]), ("Alpha", ["c", "d"]), ("Gamma", ["e", "f", "g"])] 2
      = [("Gamma", ["e", "f", "g"]), ("Alpha", ["c", "d"]), ("Beta", ["a", "b"])] := by
  constructor
  · intro α groups minCount
    have hpw := pairwise_stableSort groupLE_total groupLE_trans
      (groups.filter (fun p => minCount ≤ p.2.length))
    rw [filterDuplicateGroups]
    exact hpw.imp (fun h => (groupLE_iff _ _).mp h)
  · decide

/-- C5: under the configuration contract `minCount ≥ 2`, a key appears in
the grouping output iff at least `minCount` records map to it, and the
members of an emitted group are exactly the records with that key, in
first-seen input order; in particular a key with exactly one record never
appears when `minCount = 2`. -/
theorem grouping_key_membership {α : Type} (items : List α) (keyFn : α → String)
    (minCount : Nat) (hmin : 2 ≤ minCount) (key : String) :
    ((∃ ms, (key, ms) ∈ filterDuplicateGroups (groupBy items keyFn) minCount) ↔
      minCount ≤ (items.filter (fun i => keyFn i = key)).length)
    ∧ (∀ ms, (key, ms) ∈ filterDuplicateGroups (groupBy items keyFn) minCount →
        ms = items.filter (fun i => keyFn i = key)) := by
  have hmem : ∀ ms, (key, ms) ∈ filterDuplicateGroups (groupBy items keyFn) minCount →
      ms = items.filter (fun i => keyFn i = key) := by
    intro ms hms
    have h1 := (mem_filterDuplicateGroups.mp hms).1
    have h2 := groupBy_mem h1
    simpa using h2
  refine ⟨⟨?_, ?_⟩, hmem⟩
  · rintro ⟨ms, hms⟩
    have hlen := (mem_filterDuplicateGroups.mp hms).2
    have := hmem ms hms
    subst this
    simpa using hlen
  · intro hcount
    have hne : items.filter (fun i => keyFn i = key) ≠ [] := by
      intro hnil
      rw [hnil] at hcount
      simp at hcount
      omega
    obtain ⟨r, hr⟩ := List.exists_mem_of_ne_nil _ hne
    have hrr := List.mem_filter.mp hr
    obtain ⟨p, hp, hpk⟩ := groupBy_key_iff.mpr ⟨r, hrr.1, by simpa using hrr.2⟩
    have hval := groupBy_mem hp
    refine ⟨p.2, ?_⟩
    have hpeq : p = (key, p.2) := by
      obtain ⟨pk, pv⟩ := p
      simp only at hpk ⊢
      simp [hpk]
    rw [← hpeq]
    refine mem_filterDuplicateGroups.mpr ⟨hp, ?_⟩
    rw [hval, hpk]
    simpa using hcount

/-- C5, witness: with records `["A", "A", "B"]` keyed by themselves and
`minCount = 2`, the key `"A"` (two records) appears in the output. -/
theorem grouping_key_membership_witness :
    ∃ ms, ("A", ms) ∈ filterDuplicateGroups (groupBy ["A", "A", "B"] (fun s => s)) 2 :=
  (grouping_key_membership ["A", "A", "B"] (fun s => s) 2 (le_refl 2) "A").1.mpr
    (by decide)

-- ===========================================================================
-- Lemmas about the extractor
-- ===========================================================================

theorem nodeRecord_shape {st rf : String} {ie : Bool} {node : TsNode}
    {r : DeclarationRecord} (hr : r ∈ nodeRecord st rf ie node) :
    r.isReExport = false
    ∧ ∃ span : String, r.snippet = formatSnippet span MAX_SNIPPET_LENGTH
        ∧ r.normalizedShape = normalizeShape span r.name := by
  unfold nodeRecord at hr
  split at hr
  · next kind name hcl =>
    split at hr
    · simp at hr
    · simp at hr
      subst hr
      exact ⟨rfl, jsSlice st node.start node.stop, rfl, rfl⟩
  · simp at hr

theorem nodeRecord_enum_iff {st rf : String} {ie : Bool} {node : TsNode} :
    (∃ r ∈ nodeRecord st rf ie node, r.kind = DeclarationKind.enum) ↔
      (∃ name, classify ie node = some (DeclarationKind.enum, name) ∧ name ≠ "") := by
  unfold nodeRecord
  split
  · next kind name hcl =>
    split
    · next hempty =>
      subst hempty
      simp [hcl]
    · next hne =>
      simp only [List.mem_singleton]
      constructor
      · rintro ⟨r, rfl, hk⟩
        refine ⟨name, ?_, hne⟩
        rw [hcl]
        simpa using hk
      · rintro ⟨name2, heq, -⟩
        rw [hcl] at heq
        simp at heq
        exact ⟨_, rfl, heq.1⟩
  · next hcl =>
    constructor
    · rintro ⟨r, hr, -⟩
      simp at hr
    · rintro ⟨name, heq, -⟩
      rw [hcl] at heq
      exact absurd heq (by simp)

theorem reExportRecords_shape {st rf : String} {s : TsNode} {r : DeclarationRecord}
    (hr : r ∈ reExportRecordsOfStatement st rf s) :
    r.isReExport = true ∧ r.kind = DeclarationKind.reexport
    ∧ r.propertyNames = []
    ∧ ∃ span : String, r.snippet = formatSnippet span MAX_SNIPPET_LENGTH
        ∧ r.normalizedShape = normalizeShape span r.name := by
  cases s with
  | exportDecl hasMod clause a b cs =>
    rcases clause with - | cl
    · cases hasMod <;> (simp only [reExportRecordsOfStatement] at hr; simp at hr)
    · cases cl with
      | namedExports els =>
        cases hasMod with
        | false =>
          simp only [reExportRecordsOfStatement] at hr
          simp at hr
        | true =>
          simp only [reExportRecordsOfStatement] at hr
          simp only [Bool.not_true, Bool.false_eq_true, if_false, List.mem_map] at hr
          obtain ⟨el, hel, rfl⟩ := hr
          exact ⟨rfl, rfl, rfl, jsSlice st a b, rfl, rfl⟩
      | namespaceExport nm =>
        cases hasMod <;> (simp only [reExportRecordsOfStatement] at hr; simp at hr)
  | interfaceDecl nm ms a b cs => simp only [reExportRecordsOfStatement] at hr; simp at hr
  | typeAliasDecl nm ty a b cs => simp only [reExportRecordsOfStatement] at hr; simp at hr
  | enumDecl nm mns a b cs => simp only [reExportRecordsOfStatement] at hr; simp at hr
  | otherNode a b cs => simp only [reExportRecordsOfStatement] at hr; simp at hr

mutual

theorem visitNode_facts (st rf : String) (ie : Bool) :
    (n : TsNode) →
    (∀ r ∈ visitNode st rf ie n,
        r.isReExport = false
        ∧ ∃ span : String, r.snippet = formatSnippet span MAX_SNIPPET_LENGTH
            ∧ r.normalizedShape = normalizeShape span r.name)
    ∧ ((∃ r ∈ visitNode st rf ie n, r.kind = DeclarationKind.enum) ↔
        (ie = true ∧ hasNamedEnum n = true))
  | .interfaceDecl nm ms a b cs => by
    have ih := visitList_facts st rf ie cs
    rw [visitNode]
    constructor
    · intro r hr
      rcases List.mem_append.mp hr with hh | ht
      · exact nodeRecord_shape hh
      · exact ih.1 r ht
    · rw [hasNamedEnum]
      constructor
      · rintro ⟨r, hr, hk⟩
        rcases List.mem_append.mp hr with hh | ht
        · obtain ⟨name, hcl, -⟩ := nodeRecord_enum_iff.mp ⟨r, hh, hk⟩
          simp [classify] at hcl
        · exact ih.2.mp ⟨r, ht, hk⟩
      · intro hh
        obtain ⟨r, hr, hk⟩ := ih.2.mpr hh
        exact ⟨r, List.mem_append.mpr (Or.inr hr), hk⟩
  | .typeAliasDecl nm ty a b cs => by
    have ih := visitList_facts st rf ie cs
    rw [visitNode]
    constructor
    · intro r hr
      rcases List.mem_append.mp hr with hh | ht
      · exact nodeRecord_shape hh
      · exact ih.1 r ht
    · rw [hasNamedEnum]
      constructor
      · rintro ⟨r, hr, hk⟩
        rcases List.mem_append.mp hr with hh | ht
        · obtain ⟨name, hcl, -⟩ := nodeRecord_enum_iff.mp ⟨r, hh, hk⟩
          simp [classify] at hcl
        · exact ih.2.mp ⟨r, ht, hk⟩
      · intro hh
        obtain ⟨r, hr, hk⟩ := ih.2.mpr hh
        exact ⟨r, List.mem_append.mpr (Or.inr hr), hk⟩
  | .enumDecl nm mns a b cs => by
    have ih := visitList_facts st rf ie cs
    rw [visitNode]
    constructor
    · intro r hr
      rcases List.mem_append.mp hr with hh | ht
      · exact nodeRecord_shape hh
      · exact ih.1 r ht
    · rw [hasNamedEnum]
      constructor
      · rintro ⟨r, hr, hk⟩
        rcases List.mem_append.mp hr with hh | ht
        · obtain ⟨name, hcl, hne⟩ := nodeRecord_enum_iff.mp ⟨r, hh, hk⟩
          simp only [classify] at hcl
          by_cases hie : ie = true
          · rw [if_pos hie] at hcl
            simp at hcl
            refine ⟨hie, ?_⟩
            subst hcl
            simp [hne]
          · rw [if_neg hie] at hcl
            simp at hcl
        · have := ih.2.mp ⟨r, ht, hk⟩
          simp [this.1, this.2]
      · intro hh
        by_cases hnm : nm = ""
        · subst hnm
          simp at hh
          obtain ⟨r, hr, hk⟩ := ih.2.mpr ⟨hh.1, hh.2⟩
          exact ⟨r, List.mem_append.mpr (Or.inr hr), hk⟩
        · have hcls : classify ie (.enumDecl nm mns a b cs) = some (.enum, nm) := by
            simp [classify, hh.1]
          obtain ⟨r, hr, hk⟩ := nodeRecord_enum_iff.mpr ⟨nm, hcls, hnm⟩
          exact ⟨r, List.mem_append.mpr (Or.inl hr), hk⟩
  | .exportDecl m c a b cs => by
    have ih := visitList_facts st rf ie cs
    rw [visitNode]
    constructor
    · intro r hr
      rcases List.mem_append.mp hr with hh | ht
      · exact nodeRecord_shape hh
      · exact ih.1 r ht
    · rw [hasNamedEnum]
      constructor
      · rintro ⟨r, hr, hk⟩
        rcases List.mem_append.mp hr with hh | ht
        · obtain ⟨name, hcl, -⟩ := nodeRecord_enum_iff.mp ⟨r, hh, hk⟩
          simp [classify] at hcl
        · exact ih.2.mp ⟨r, ht, hk⟩
      · intro hh
        obtain ⟨r, hr, hk⟩ := ih.2.mpr hh
        exact ⟨r, List.mem_append.mpr (Or.inr hr), hk⟩
  | .otherNode a b cs => by
    have ih := visitList_facts st rf ie cs
    rw [visitNode]
    constructor
    · intro r hr
      rcases List.mem_append.mp hr with hh | ht
      · exact nodeRecord_shape hh
      · exact ih.1 r ht
    · rw [hasNamedEnum]
      constructor
      · rintro ⟨r, hr, hk⟩
        rcases List.mem_append.mp hr with hh | ht
        · obtain ⟨name, hcl, -⟩ := nodeRecord_enum_iff.mp ⟨r, hh, hk⟩
          simp [classify] at hcl
        · exact ih.2.mp ⟨r, ht, hk⟩
      · intro hh
        obtain ⟨r, hr, hk⟩ := ih.2.mpr hh
        exact ⟨r, List.mem_append.mpr (Or.inr hr), hk⟩

theorem visitList_facts (st rf : String) (ie : Bool) :
    (l : List TsNode) →
    (∀ r ∈ visitList st rf ie l,
        r.isReExport = false
        ∧ ∃ span : String, r.snippet = formatSnippet span MAX_SNIPPET_LENGTH
            ∧ r.normalizedShape = normalizeShape span r.name)
    ∧ ((∃ r ∈ visitList st rf ie l, r.kind = DeclarationKind.enum) ↔
        (ie = true ∧ hasNamedEnumList l = true))
  | [] => by
    rw [visitList]
    simp [hasNamedEnumList]
  | n :: rest => by
    have ihn := visitNode_facts st rf ie n
    have ihl := visitList_facts st rf ie rest
    rw [visitList]
    constructor
    · intro r hr
      rcases List.mem_append.mp hr with hh | ht
      · exact ihn.1 r hh
      · exact ihl.1 r ht
    · rw [hasNamedEnumList]
      constructor
      · rintro ⟨r, hr, hk⟩
        rcases List.mem_append.mp hr with hh | ht
        · have := ihn.2.mp ⟨r, hh, hk⟩
          simp [this.1, this.2]
        · have := ihl.2.mp ⟨r, ht, hk⟩
          simp [this.1, this.2]
      · intro hh
        rcases Bool.or_eq_true_iff.mp hh.2 with hl | hr2
        · obtain ⟨r, hr, hk⟩ := ihn.2.mpr ⟨hh.1, hl⟩
          exact ⟨r, List.mem_append.mpr (Or.inl hr), hk⟩
        · obtain ⟨r, hr, hk⟩ := ihl.2.mpr ⟨hh.1, hr2⟩
          exact ⟨r, List.mem_append.mpr (Or.inr hr), hk⟩

end


-- ===========================================================================
-- C6, C8, C9: the extractor
-- ===========================================================================

theorem jsSlice_full (s : String) : jsSlice s 0 s.length = s := by
  have : (s.data.take s.length).drop 0 = s.data := by
    simp [List.take_length]
  simp [jsSlice, this]

/-- C9: extraction is a pure function of the parsed unit, the source text
and the options (it is a Lean function of them — deterministic, no I/O);
its output is the re-export pass over the statements followed by the
tree-walk records in preorder document order, so every re-export record
precedes every tree-walk record; and an enum record is emitted iff
`includeEnums` holds and the tree contains an enum declaration with a
nonempty name. -/
theorem extraction_order_and_enum_gate :
    (∀ (ast : SourceFileAst) (sourceText relativeFile : String) (includeEnums : Bool),
      ∃ A B, collectDeclarations ast sourceText relativeFile includeEnums = A ++ B
        ∧ A = collectReExportRecords ast.statements sourceText relativeFile
        ∧ B = visitList sourceText relativeFile includeEnums ast.statements
        ∧ (∀ r ∈ A, r.isReExport = true) ∧ (∀ r ∈ B, r.isReExport = false))
    ∧ (∀ (ast : SourceFileAst) (sourceText relativeFile : String) (includeEnums : Bool),
        (∃ r ∈ collectDeclarations ast sourceText relativeFile includeEnums,
            r.kind = DeclarationKind.enum) ↔
          (includeEnums = true ∧ hasNamedEnumList ast.statements = true)) := by
  constructor
  · intro ast st rf ie
    refine ⟨_, _, rfl, rfl, rfl, ?_, ?_⟩
    · intro r hr
      rw [collectReExportRecords] at hr
      obtain ⟨s, hs, hrs⟩ := List.mem_flatMap.mp hr
      exact (reExportRecords_shape hrs).1
    · intro r hr
      exact ((visitList_facts st rf ie ast.statements).1 r hr).1
  · intro ast st rf ie
    rw [collectDeclarations]
    constructor
    · rintro ⟨r, hr, hk⟩
      rcases List.mem_append.mp hr with hh | ht
      · rw [collectReExportRecords] at hh
        obtain ⟨s, hs, hrs⟩ := List.mem_flatMap.mp hh
        have hkind := (reExportRecords_shape hrs).2.1
        rw [hkind] at hk
        exact absurd hk (by simp)
      · exact (visitList_facts st rf ie ast.statements).2.mp ⟨r, ht, hk⟩
    · intro hh
      obtain ⟨r, hr, hk⟩ := (visitList_facts st rf ie ast.statements).2.mpr hh
      exact ⟨r, List.mem_append.mpr (Or.inr hr), hk⟩

/-- C9, witness: on a unit with one named enum declaration, an enum record
is emitted when `includeEnums = true` (applying the gate at this input). -/
theorem extraction_enum_gate_witness :
    ∃ r ∈ collectDeclarations enumAst enumSourceText "src/e.ts" true,
      r.kind = DeclarationKind.enum :=
  (extraction_order_and_enum_gate.2 enumAst enumSourceText "src/e.ts" true).mpr
    (by constructor
        · rfl
        · simp [enumAst, hasNamedEnumList, hasNamedEnum])

set_option maxRecDepth 100000 in
/-- C8: in every record emitted by extraction there is a source span (the
node's exact text span) whose display form — `formatSnippet`, which
truncates to `MAX_SNIPPET_LENGTH` — is the stored snippet and whose full,
untruncated text is what `normalizeShape` fingerprints; on a 227-character
interface the stored snippet is the truncated display form while the
fingerprint equals `normalizeShape` of the full span and is itself longer
than the display bound. -/
theorem snippet_display_fingerprint_full :
    (∀ (ast : SourceFileAst) (sourceText relativeFile : String) (includeEnums : Bool)
        (r : DeclarationRecord),
        r ∈ collectDeclarations ast sourceText relativeFile includeEnums →
        ∃ span : String, r.snippet = formatSnippet span MAX_SNIPPET_LENGTH
          ∧ r.normalizedShape = normalizeShape span r.name)
    ∧ ((collectDeclarations longAst longSourceText "src/w.ts" true).map
          (fun r => (r.snippet, r.normalizedShape))
        = [(formatSnippet longSourceText MAX_SNIPPET_LENGTH,
            normalizeShape longSourceText "Wide")])
    ∧ (formatSnippet longSourceText MAX_SNIPPET_LENGTH).length = MAX_SNIPPET_LENGTH
    ∧ MAX_SNIPPET_LENGTH < (normalizeShape longSourceText "Wide").length := by
  refine ⟨?_, ?_, ?_, ?_⟩
  · intro ast st rf ie r hr
    rw [collectDeclarations] at hr
    rcases List.mem_append.mp hr with hh | ht
    · rw [collectReExportRecords] at hh
      obtain ⟨s, hs, hrs⟩ := List.mem_flatMap.mp hh
      exact (reExportRecords_shape hrs).2.2.2
    · exact ((visitList_facts st rf ie ast.statements).1 r ht).2
  · have hslice : jsSlice longSourceText 0 longSourceText.length = longSourceText :=
      jsSlice_full longSourceText
    simp only [collectDeclarations, collectReExportRecords, longAst,
      reExportRecordsOfStatement, List.flatMap_cons, List.flatMap_nil,
      visitList, visitNode, nodeRecord, classify, TsNode.start, TsNode.stop, hslice]
    simp
  · decide
  · decide

/-- C6: extracting a unit whose statement is `export { Foo, Bar } from "./m";`
yields exactly two records, named `Foo` and `Bar`, each a re-export
(`kind = reexport`, `isReExport = true`) with empty `propertyNames` and the
raw statement text as snippet; with an alias `export { Foo as Baz } ...` the
record uses the exported name `Baz`; a wildcard `export * from "./m";`
yields no records at all. -/
theorem reexport_extraction :
    ((collectDeclarations reExportAst reExportSourceText "src/m.ts" true).map
        (fun r => (r.name, r.kind, r.isReExport, r.propertyNames, r.snippet))
      = [("Foo", DeclarationKind.reexport, true, [], reExportSourceText),
         ("Bar", DeclarationKind.reexport, true, [], reExportSourceText)])
    ∧ collectDeclarations wildcardAst wildcardSourceText "src/m.ts" true = []
    ∧ ((collectDeclarations aliasAst aliasSourceText "src/m.ts" true).map
        (fun r => (r.name, r.kind, r.isReExport))
      = [("Baz", DeclarationKind.reexport, true)]) := by
  refine ⟨by decide, by decide, by decide⟩

-- ===========================================================================
-- C10: argument reading
-- ===========================================================================

theorem readStringArg_eq_none {flag arg : String} {rest : List String}
    (h1 : (flag ++ "=").data.isPrefixOf arg.data = false) (h2 : arg ≠ flag) :
    readStringArg flag arg rest = none := by
  unfold readStringArg
  rw [if_neg (by simp only [h1]; decide), if_neg h2]

theorem readOutputArg_eq_none {arg : String} {rest : List String}
    (h1 : ("--output" ++ "=").data.isPrefixOf arg.data = false) (h2 : arg ≠ "--output")
    (h3 : ("--out" ++ "=").data.isPrefixOf arg.data = false) (h4 : arg ≠ "--out") :
    readOutputArg arg rest = none := by
  unfold readOutputArg
  rw [readStringArg_eq_none h1 h2, readStringArg_eq_none h3 h4]

theorem parseLoop_all_unrecognized :
    ∀ (argv : List String) (opts : CliOptions),
      (∀ t ∈ argv, recognizedToken t = false) → parseLoop opts argv = .ok opts := by
  intro argv
  induction argv with
  | nil =>
    intro opts h
    rw [parseLoop]
  | cons arg rest ih =>
    intro opts h
    have harg := h arg (by simp)
    have hrest : ∀ t ∈ rest, recognizedToken t = false :=
      fun t ht => h t (List.mem_cons_of_mem _ ht)
    simp only [recognizedToken, boolFlagTokens, isValueFlagToken, valueFlagTokens,
      List.any_cons, List.any_nil, Bool.or_eq_false_iff, beq_eq_false_iff_ne,
      ne_eq, decide_eq_false_iff_not] at harg
    obtain ⟨⟨hb1, hb2, hb3, hb4, hb5, hb6, hb7, hb8, -⟩,
      ⟨hf1, hf2⟩, ⟨hm1, hm2⟩, ⟨ho1, ho2⟩, ⟨hou1, hou2⟩, ⟨hr1, hr2⟩,
      ⟨htc1, htc2⟩, ⟨hex1, hex2⟩, ⟨hmin1, hmin2⟩, -⟩ := harg
    rw [parseLoop]
    by_cases hemp : arg = ""
    · rw [if_pos hemp]
      exact ih opts hrest
    · rw [if_neg hemp, if_neg hb1, if_neg (by tauto), if_neg (by tauto),
        if_neg hb6, if_neg hb7, if_neg hb8]
      rw [readStringArg_eq_none hf2 hf1, readStringArg_eq_none hm2 hm1,
        readOutputArg_eq_none ho2 ho1 hou2 hou1, readStringArg_eq_none hr2 hr1,
        readStringArg_eq_none htc2 htc1, readStringArg_eq_none hex2 hex1,
        readStringArg_eq_none hmin2 hmin1]
      exact ih opts hrest

theorem parseLoop_no_value_flag_ok :
    ∀ (argv : List String) (opts : CliOptions),
      (∀ t ∈ argv, isValueFlagToken t = false) →
      ∃ o, parseLoop opts argv = .ok o := by
  intro argv
  induction argv with
  | nil =>
    intro opts h
    exact ⟨opts, by rw [parseLoop]⟩
  | cons arg rest ih =>
    intro opts h
    have harg := h arg (by simp)
    have hrest : ∀ t ∈ rest, isValueFlagToken t = false :=
      fun t ht => h t (List.mem_cons_of_mem _ ht)
    simp only [isValueFlagToken, valueFlagTokens, List.any_cons, List.any_nil,
      Bool.or_eq_false_iff, beq_eq_false_iff_ne, ne_eq,
      decide_eq_false_iff_not] at harg
    obtain ⟨⟨hf1, hf2⟩, ⟨hm1, hm2⟩, ⟨ho1, ho2⟩, ⟨hou1, hou2⟩, ⟨hr1, hr2⟩,
      ⟨htc1, htc2⟩, ⟨hex1, hex2⟩, ⟨hmin1, hmin2⟩, -⟩ := harg
    rw [parseLoop]
    by_cases hemp : arg = ""
    · rw [if_pos hemp]; exact ih opts hrest
    · rw [if_neg hemp]
      by_cases hjson : arg = "--json"
      · rw [if_pos hjson]; exact ih _ hrest
      rw [if_neg hjson]
      by_cases hmd : arg = "--markdown" ∨ arg = "--md"
      · rw [if_pos hmd]; exact ih _ hrest
      rw [if_neg hmd]
      by_cases hhelp : arg = "--help" ∨ arg = "-h"
      · rw [if_pos hhelp]; exact ih _ hrest
      rw [if_neg hhelp]
      by_cases hfail : arg = "--fail-on-duplicates"
      · rw [if_pos hfail]; exact ih _ hrest
      rw [if_neg hfail]
      by_cases hne2 : arg = "--no-enums"
      · rw [if_pos hne2]; exact ih _ hrest
      rw [if_neg hne2]
      by_cases hre : arg = "--include-reexports"
      · rw [if_pos hre]; exact ih _ hrest
      rw [if_neg hre]
      rw [readStringArg_eq_none hf2 hf1, readStringArg_eq_none hm2 hm1,
        readOutputArg_eq_none ho2 ho1 hou2 hou1, readStringArg_eq_none hr2 hr1,
        readStringArg_eq_none htc2 htc1, readStringArg_eq_none hex2 hex1,
        readStringArg_eq_none hmin2 hmin1]
      exact ih opts hrest

/-- C10: `parseArgs` silently ignores argv tokens that are not recognized
flags — with only unrecognized tokens it returns exactly the defaults,
neither erroring nor touching any option — and an error can only arise from
a recognized value-taking flag (missing or invalid value): when no token is
an occurrence of a value-taking flag, `parseArgs` always succeeds. -/
theorem parseArgs_unrecognized_ignored :
    (∀ argv : List String, (∀ t ∈ argv, recognizedToken t = false) →
      parseArgs argv = .ok defaultOptions)
    ∧ (∀ argv : List String, (∀ t ∈ argv, isValueFlagToken t = false) →
      ∃ o, parseArgs argv = .ok o) :=
  ⟨fun argv h => parseLoop_all_unrecognized argv defaultOptions h,
   fun argv h => parseLoop_no_value_flag_ok argv defaultOptions h⟩

/-- C10, witness: an argv of only unrecognized tokens (a misspelled
`--bogus` among them) parses to exactly the default options. -/
theorem parseArgs_unrecognized_ignored_witness :
    parseArgs ["--bogus", "stray", "-x"] = .ok defaultOptions :=
  parseArgs_unrecognized_ignored.1 ["--bogus", "stray", "-x"] (by decide)

/-- C8, witness: the record extracted for `enum Color { Red, Green, Blue }`
has a span whose display form is its snippet and whose full text is what the
fingerprint normalizes. -/
theorem snippet_display_fingerprint_full_witness :
    ∃ span : String,
      ({ name := "Color", kind := DeclarationKind.enum, file := "src/e.ts", line := 1,
         snippet := "enum Color \x7b Red, Green, Blue \x7d",
         normalizedShape := "enum __NAME__ \x7b Red, Green, Blue \x7d",
         isReExport := false, propertyCount := 3,
         propertyNames := ["Blue", "Green", "Red"] } : DeclarationRecord).snippet
          = formatSnippet span MAX_SNIPPET_LENGTH
      ∧ ({ name := "Color", kind := DeclarationKind.enum, file := "src/e.ts", line := 1,
           snippet := "enum Color \x7b Red, Green, Blue \x7d",
           normalizedShape := "enum __NAME__ \x7b Red, Green, Blue \x7d",
           isReExport := false, propertyCount := 3,
           propertyNames := ["Blue", "Green", "Red"] } : DeclarationRecord).normalizedShape
          = normalizeShape span "Color" :=
  snippet_display_fingerprint_full.1 enumAst enumSourceText "src/e.ts" true _ (by decide)

-- ===========================================================================
-- C1: interface and type-alias fingerprints agree
-- ===========================================================================

theorem rewriteIface_interface_head (t : String) :
    rewriteIface ("interface __NAME__ \x7b" ++ t) = "type __NAME__ = \x7b" ++ t := rfl

/-- C1: `normalize("interface Foo { bar: string; }", "Foo")` and
`normalize("type Foo = { bar: string; }", "Foo")` are equal and both are the
string `"type __NAME__ = { bar: string; }"`; in general, whenever the
whitespace-normalized, name-substituted forms of an interface declaration
and of a type-alias declaration are `interface __NAME__ {` + `t` and
`type __NAME__ = {` + `t` for the same member text `t` (and the
`interface` rewrite does not fire inside the type-alias form), the two
fingerprints coincide. -/
theorem interface_type_alias_same_fingerprint :
    (normalizeShape "interface Foo \x7b bar: string; \x7d" "Foo"
        = normalizeShape "type Foo = \x7b bar: string; \x7d" "Foo"
      ∧ normalizeShape "interface Foo \x7b bar: string; \x7d" "Foo"
        = "type __NAME__ = \x7b bar: string; \x7d")
    ∧ (∀ (raw1 raw2 name t : String),
        replaceName name (normalizeWhitespace raw1) = "interface __NAME__ \x7b" ++ t →
        replaceName name (normalizeWhitespace raw2) = "type __NAME__ = \x7b" ++ t →
        rewriteIface ("type __NAME__ = \x7b" ++ t) = "type __NAME__ = \x7b" ++ t →
        normalizeShape raw1 name = normalizeShape raw2 name) := by
  refine ⟨⟨by decide, by decide⟩, ?_⟩
  intro raw1 raw2 name t h1 h2 h4
  unfold normalizeShape
  rw [h1, h2, rewriteIface_interface_head, h4]

/-- C1, witness: the general part applied to the specification's two
snippets (hypotheses checked by computation). -/
theorem interface_type_alias_same_fingerprint_witness :
    normalizeShape "interface Foo \x7b bar: string; \x7d" "Foo"
      = normalizeShape "type Foo = \x7b bar: string; \x7d" "Foo" :=
  interface_type_alias_same_fingerprint.2 "interface Foo \x7b bar: string; \x7d"
    "type Foo = \x7b bar: string; \x7d" "Foo" " bar: string; \x7d"
    (by decide) (by decide) (by decide)

-- ===========================================================================
-- C7: invariance under comments and extra whitespace
-- ===========================================================================

theorem hasTwo_tail {c1 c2 x : Char} {l : List Char}
    (h : hasTwo c1 c2 (x :: l) = false) : hasTwo c1 c2 l = false := by
  cases l with
  | nil => rfl
  | cons y l' =>
    rw [hasTwo] at h
    simp at h
    simpa using h.2

theorem hasTwo_head {c1 c2 x : Char} {l : List Char}
    (h : hasTwo c1 c2 (x :: l) = false) (hx : x = c1) : l.head? ≠ some c2 := by
  cases l with
  | nil => simp
  | cons y l' =>
    rw [hasTwo] at h
    simp at h
    subst hx
    simpa using fun he => (h.1 rfl he).elim

theorem stripBlockAux_close (b : List Char) :
    ∀ (c : List Char), hasTwo '*' '/' c = false →
      (∀ acc, stripBlockAux (.inside acc) (c ++ '*' :: '/' :: b)
          = ' ' :: stripBlockAux .outside b)
      ∧ (∀ acc, c.head? ≠ some '/' →
          stripBlockAux (.insideStar acc) (c ++ '*' :: '/' :: b)
            = ' ' :: stripBlockAux .outside b) := by
  intro c
  induction c with
  | nil =>
    intro h
    refine ⟨fun acc => ?_, fun acc _ => ?_⟩
    · simp [stripBlockAux]
    · simp [stripBlockAux]
  | cons x c' ih =>
    intro h
    have htail := hasTwo_tail h
    obtain ⟨ih1, ih2⟩ := ih htail
    constructor
    · intro acc
      by_cases hx : x = '*'
      · subst hx
        rw [List.cons_append, stripBlockAux, if_pos rfl]
        exact ih2 _ (hasTwo_head h rfl)
      · rw [List.cons_append, stripBlockAux, if_neg hx]
        exact ih1 _
    · intro acc hhd
      have hx : x ≠ '/' := by
        intro hcon
        exact hhd (by simp [hcon])
      by_cases hxs : x = '*'
      · subst hxs
        rw [List.cons_append, stripBlockAux, if_neg (by decide), if_pos rfl]
        exact ih2 _ (hasTwo_head h rfl)
      · rw [List.cons_append, stripBlockAux, if_neg hx, if_neg hxs]
        exact ih1 _

theorem stripBlockAux_insert (b c : List Char) (hc : hasTwo '*' '/' c = false) :
    ∀ (a : List Char), hasTwo '/' '*' a = false →
      (stripBlockAux .outside (a ++ '/' :: '*' :: (c ++ '*' :: '/' :: b))
          = stripBlockAux .outside (a ++ ' ' :: b))
      ∧ (a.head? ≠ some '*' →
          stripBlockAux .seenSlash (a ++ '/' :: '*' :: (c ++ '*' :: '/' :: b))
            = stripBlockAux .seenSlash (a ++ ' ' :: b)) := by
  intro a
  induction a with
  | nil =>
    intro _
    constructor
    · show stripBlockAux .outside ('/' :: '*' :: (c ++ '*' :: '/' :: b)) = _
      rw [stripBlockAux, if_pos rfl, stripBlockAux, if_pos rfl,
        (stripBlockAux_close b c hc).1]
      show _ = stripBlockAux .outside (' ' :: b)
      rw [stripBlockAux, if_neg (by decide)]
    · intro _
      show stripBlockAux .seenSlash ('/' :: '*' :: (c ++ '*' :: '/' :: b)) = _
      rw [stripBlockAux, if_neg (by decide), if_pos rfl, stripBlockAux, if_pos rfl,
        (stripBlockAux_close b c hc).1]
      show _ = stripBlockAux .seenSlash (' ' :: b)
      rw [stripBlockAux, if_neg (by decide), if_neg (by decide)]
  | cons x a' ih =>
    intro h
    have htail := hasTwo_tail h
    obtain ⟨ih1, ih2⟩ := ih htail
    constructor
    · by_cases hx : x = '/'
      · subst hx
        rw [List.cons_append, stripBlockAux, if_pos rfl,
          List.cons_append, stripBlockAux, if_pos rfl]
        exact ih2 (hasTwo_head h rfl)
      · rw [List.cons_append, stripBlockAux, if_neg hx,
          List.cons_append, stripBlockAux, if_neg hx]
        rw [ih1]
    · intro hhd
      have hxs : x ≠ '*' := by
        intro hcon
        exact hhd (by simp [hcon])
      by_cases hx : x = '/'
      · subst hx
        rw [List.cons_append, stripBlockAux, if_neg (by decide), if_pos rfl,
          List.cons_append, stripBlockAux, if_neg (by decide), if_pos rfl]
        rw [ih2 (hasTwo_head h rfl)]
      · rw [List.cons_append, stripBlockAux, if_neg hxs, if_neg hx,
          List.cons_append, stripBlockAux, if_neg hxs, if_neg hx]
        rw [ih1]

theorem stripBlockAux_id :
    ∀ (l : List Char), hasTwo '/' '*' l = false →
      (stripBlockAux .outside l = l)
      ∧ (l.head? ≠ some '*' → stripBlockAux .seenSlash l = '/' :: l) := by
  intro l
  induction l with
  | nil =>
    intro _
    exact ⟨rfl, fun _ => rfl⟩
  | cons x l' ih =>
    intro h
    obtain ⟨ih1, ih2⟩ := ih (hasTwo_tail h)
    constructor
    · by_cases hx : x = '/'
      · subst hx
        rw [stripBlockAux, if_pos rfl, ih2 (hasTwo_head h rfl)]
      · rw [stripBlockAux, if_neg hx, ih1]
    · intro hhd
      have hxs : x ≠ '*' := by
        intro hcon
        exact hhd (by simp [hcon])
      by_cases hx : x = '/'
      · subst hx
        rw [stripBlockAux, if_neg (by decide), if_pos rfl, ih2 (hasTwo_head h rfl)]
      · rw [stripBlockAux, if_neg hxs, if_neg hx, ih1]

theorem stripLineAux_id :
    ∀ (l : List Char), hasTwo '/' '/' l = false →
      (stripLineAux .outside l = l)
      ∧ (l.head? ≠ some '/' → stripLineAux .seenSlash l = '/' :: l) := by
  intro l
  induction l with
  | nil =>
    intro _
    exact ⟨rfl, fun _ => rfl⟩
  | cons x l' ih =>
    intro h
    obtain ⟨ih1, ih2⟩ := ih (hasTwo_tail h)
    constructor
    · by_cases hx : x = '/'
      · subst hx
        rw [stripLineAux, if_pos rfl, ih2 (hasTwo_head h rfl)]
      · rw [stripLineAux, if_neg hx, ih1]
    · intro hhd
      have hx : x ≠ '/' := by
        intro hcon
        exact hhd (by simp [hcon])
      rw [stripLineAux, if_neg hx, ih1]

theorem collapseWsAux_ws_run (y : List Char) :
    ∀ (w : List Char), w ≠ [] → w.all isWsChar → ∀ flag,
      collapseWsAux flag (w ++ y) = collapseWsAux flag (' ' :: y) := by
  intro w
  induction w with
  | nil => intro h; exact absurd rfl h
  | cons x w' ih =>
    intro _ hall flag
    simp only [List.all_cons, Bool.and_eq_true] at hall
    obtain ⟨hx, hall'⟩ := hall
    have hsp : isWsChar ' ' = true := by decide
    by_cases hw : w' = []
    · subst hw
      cases flag <;> simp [collapseWsAux, hx, hsp]
    · have hrec := ih hw hall' true
      cases flag <;> simp [collapseWsAux, hx, hrec, hsp]

theorem collapseWsAux_insert (y w : List Char) (hne : w ≠ []) (hws : w.all isWsChar) :
    ∀ (x : List Char) (flag : Bool),
      collapseWsAux flag (x ++ (w ++ y)) = collapseWsAux flag (x ++ ' ' :: y) := by
  intro x
  induction x with
  | nil =>
    intro flag
    simpa using collapseWsAux_ws_run y w hne hws flag
  | cons c x' ih =>
    intro flag
    by_cases hc : isWsChar c
    · cases flag <;> simp [collapseWsAux, hc, ih true]
    · cases flag <;> simp [collapseWsAux, hc, ih false]

theorem stripLineAux_skip (b : List Char) (nl : Char) (hnl : nl = '\n' ∨ nl = '\r') :
    ∀ (c : List Char), (∀ ch ∈ c, ¬(ch = '\n' ∨ ch = '\r')) →
      stripLineAux .inComment (c ++ nl :: b) = nl :: stripLineAux .outside b := by
  intro c
  induction c with
  | nil =>
    intro _
    show stripLineAux .inComment (nl :: b) = _
    rw [stripLineAux, if_pos hnl]
  | cons x c' ih =>
    intro h
    have hx := h x (by simp)
    rw [List.cons_append, stripLineAux, if_neg hx]
    exact ih (fun ch hch => h ch (by simp [hch]))

theorem stripLineAux_pass :
    ∀ (a : List Char), hasTwo '/' '/' a = false → a.getLast? ≠ some '/' →
      (∀ tail, stripLineAux .outside (a ++ tail) = a ++ stripLineAux .outside tail)
      ∧ (a ≠ [] → a.head? ≠ some '/' →
          ∀ tail, stripLineAux .seenSlash (a ++ tail)
            = '/' :: a ++ stripLineAux .outside tail) := by
  intro a
  induction a with
  | nil =>
    intro _ _
    exact ⟨fun tail => rfl, fun h => absurd rfl h⟩
  | cons x a' ih =>
    intro h hlast
    have htail := hasTwo_tail h
    have hlast' : a' ≠ [] → a'.getLast? ≠ some '/' := by
      intro hne
      cases a' with
      | nil => exact absurd rfl hne
      | cons y a'' =>
        simpa [List.getLast?_cons_cons] using hlast
    constructor
    · intro tail
      by_cases hx : x = '/'
      · subst hx
        have hne : a' ≠ [] := by
          intro hnil
          subst hnil
          exact hlast (by simp)
        obtain ⟨-, ih2⟩ := ih htail (hlast' hne)
        rw [List.cons_append, stripLineAux, if_pos rfl,
          ih2 hne (hasTwo_head h rfl) tail]
      · obtain ⟨ih1, -⟩ := ih htail (fun hcon => hlast (by
          cases a' with
          | nil => simp at hcon
          | cons y a'' => simpa [List.getLast?_cons_cons] using hcon))
        rw [List.cons_append, stripLineAux, if_neg hx, ih1 tail, List.cons_append]
    · intro _ hhd tail
      have hx : x ≠ '/' := by
        intro hcon
        exact hhd (by simp [hcon])
      obtain ⟨ih1, -⟩ := ih htail (fun hcon => hlast (by
        cases a' with
        | nil => simp at hcon
        | cons y a'' => simpa [List.getLast?_cons_cons] using hcon))
      rw [List.cons_append, stripLineAux, if_neg hx, ih1 tail]
      simp


/-- The fingerprint depends on the snippet only through `normalizeWhitespace`,
the first normalization stage. -/
theorem normalizeShape_congr (raw1 raw2 name : String)
    (h : normalizeWhitespace raw1 = normalizeWhitespace raw2) :
    normalizeShape raw1 name = normalizeShape raw2 name := by
  unfold normalizeShape
  rw [h]

/-- C7: the fingerprint is invariant under insertion/removal of comments
and extra whitespace in the declaration's body: (i) snippets with the same
whitespace-and-comment normalization have the same fingerprint; (ii) inserting
a block comment in place of a space (the comment text containing no closer,
next to code containing no block-comment opener) leaves the fingerprint
unchanged; (iii) replacing a single space by any nonempty whitespace run (in a
snippet free of comment openers) leaves the fingerprint unchanged;
(iv) inserting a line comment at the end of a line (the preceding text free of
line-comment openers and not ending in a slash, the comment text free of line
terminators, no block-comment opener arising) leaves the fingerprint
unchanged. -/
theorem fingerprint_comment_ws_invariance :
    (∀ raw1 raw2 name : String,
        normalizeWhitespace raw1 = normalizeWhitespace raw2 →
        normalizeShape raw1 name = normalizeShape raw2 name)
    ∧ (∀ a c b name : String,
        hasTwo '/' '*' a.data = false →
        hasTwo '*' '/' c.data = false →
        normalizeShape (a ++ "/*" ++ c ++ "*/" ++ b) name
          = normalizeShape (a ++ " " ++ b) name)
    ∧ (∀ a w b name : String, w.data ≠ [] → w.data.all isWsChar →
        hasTwo '/' '*' (a ++ w ++ b).data = false →
        hasTwo '/' '/' (a ++ w ++ b).data = false →
        hasTwo '/' '*' (a ++ " " ++ b).data = false →
        hasTwo '/' '/' (a ++ " " ++ b).data = false →
        normalizeShape (a ++ w ++ b) name = normalizeShape (a ++ " " ++ b) name)
    ∧ (∀ a c b name : String, ∀ nl : Char, (nl = '\n' ∨ nl = '\r') →
        hasTwo '/' '/' a.data = false →
        a.data.getLast? ≠ some '/' →
        (∀ ch ∈ c.data, ¬(ch = '\n' ∨ ch = '\r')) →
        hasTwo '/' '*' (a ++ "//" ++ c ++ String.mk [nl] ++ b).data = false →
        hasTwo '/' '*' (a ++ String.mk [nl] ++ b).data = false →
        normalizeShape (a ++ "//" ++ c ++ String.mk [nl] ++ b) name
          = normalizeShape (a ++ String.mk [nl] ++ b) name) := by
  refine ⟨fun r1 r2 n h => normalizeShape_congr r1 r2 n h, ?_, ?_, ?_⟩
  · intro a c b name ha hc
    apply normalizeShape_congr
    unfold normalizeWhitespace
    have hdl : (a ++ "/*" ++ c ++ "*/" ++ b).data
        = a.data ++ '/' :: '*' :: (c.data ++ '*' :: '/' :: b.data) := by
      simp [String.data_append]
    have hdr : (a ++ " " ++ b).data = a.data ++ ' ' :: b.data := by
      simp [String.data_append]
    rw [hdl, hdr]
    have hblk : stripBlockComments (a.data ++ '/' :: '*' :: (c.data ++ '*' :: '/' :: b.data))
        = stripBlockComments (a.data ++ ' ' :: b.data) :=
      (stripBlockAux_insert b.data c.data hc a.data ha).1
    rw [hblk]
  · intro a w b name hne hws hB1 hL1 hB2 hL2
    apply normalizeShape_congr
    unfold normalizeWhitespace
    have hb1 : stripBlockComments (a ++ w ++ b).data = (a ++ w ++ b).data :=
      (stripBlockAux_id _ hB1).1
    have hb2 : stripBlockComments (a ++ " " ++ b).data = (a ++ " " ++ b).data :=
      (stripBlockAux_id _ hB2).1
    have hl1 : stripLineComments (a ++ w ++ b).data = (a ++ w ++ b).data :=
      (stripLineAux_id _ hL1).1
    have hl2 : stripLineComments (a ++ " " ++ b).data = (a ++ " " ++ b).data :=
      (stripLineAux_id _ hL2).1
    rw [hb1, hb2, hl1, hl2]
    have hdl : (a ++ w ++ b).data = a.data ++ (w.data ++ b.data) := by
      simp [String.data_append]
    have hdr : (a ++ " " ++ b).data = a.data ++ ' ' :: b.data := by
      simp [String.data_append]
    rw [hdl, hdr]
    have hcol : collapseWs (a.data ++ (w.data ++ b.data))
        = collapseWs (a.data ++ ' ' :: b.data) :=
      collapseWsAux_insert b.data w.data hne hws a.data false
    rw [hcol]
  · intro a c b name nl hnl hLa hlast hcterm hB1 hB3
    have hnls : nl ≠ '/' := by
      rcases hnl with h | h <;> subst h <;> decide
    obtain ⟨hp1, -⟩ := stripLineAux_pass a.data hLa hlast
    have hd1 : (a ++ "//" ++ c ++ String.mk [nl] ++ b).data
        = a.data ++ ('/' :: '/' :: (c.data ++ nl :: b.data)) := by
      simp [String.data_append]
    have hd3 : (a ++ String.mk [nl] ++ b).data = a.data ++ (nl :: b.data) := by
      simp [String.data_append]
    rw [hd1] at hB1
    rw [hd3] at hB3
    apply normalizeShape_congr
    unfold normalizeWhitespace
    rw [hd1, hd3]
    rw [show stripBlockComments (a.data ++ ('/' :: '/' :: (c.data ++ nl :: b.data)))
        = a.data ++ ('/' :: '/' :: (c.data ++ nl :: b.data)) from (stripBlockAux_id _ hB1).1]
    rw [show stripBlockComments (a.data ++ (nl :: b.data))
        = a.data ++ (nl :: b.data) from (stripBlockAux_id _ hB3).1]
    have hline1 : stripLineComments (a.data ++ ('/' :: '/' :: (c.data ++ nl :: b.data)))
        = a.data ++ (' ' :: nl :: stripLineComments b.data) := by
      show stripLineAux .outside _ = _
      rw [hp1]
      congr 1
      rw [stripLineAux, if_pos rfl, stripLineAux, if_pos rfl,
        stripLineAux_skip b.data nl hnl c.data hcterm]
      rfl
    have hline3 : stripLineComments (a.data ++ (nl :: b.data))
        = a.data ++ (nl :: stripLineComments b.data) := by
      show stripLineAux .outside _ = _
      rw [hp1]
      congr 1
      rw [stripLineAux, if_neg hnls]
      rfl
    rw [hline1, hline3]
    have hws2 : (' ' :: nl :: stripLineComments b.data)
        = ([' ', nl] ++ stripLineComments b.data) := rfl
    have hws3 : (nl :: stripLineComments b.data)
        = ([nl] ++ stripLineComments b.data) := rfl
    have hcol1 : collapseWs (a.data ++ (' ' :: nl :: stripLineComments b.data))
        = collapseWs (a.data ++ ' ' :: stripLineComments b.data) := by
      rw [hws2]
      exact collapseWsAux_insert (stripLineComments b.data) [' ', nl]
        (by simp) (by rcases hnl with h | h <;> subst h <;> decide) a.data false
    have hcol3 : collapseWs (a.data ++ (nl :: stripLineComments b.data))
        = collapseWs (a.data ++ ' ' :: stripLineComments b.data) := by
      rw [hws3]
      exact collapseWsAux_insert (stripLineComments b.data) [nl]
        (by simp) (by rcases hnl with h | h <;> subst h <;> decide) a.data false
    rw [hcol1, hcol3]

/-- Witness for C7: concrete instances of each invariance clause, with the
hypotheses discharged by computation. -/
theorem fingerprint_comment_ws_invariance_witness :
    (normalizeShape ("x: T;" ++ "/*" ++ " note " ++ "*/" ++ " y: U;") "A"
        = normalizeShape ("x: T;" ++ " " ++ " y: U;") "A")
    ∧ (normalizeShape ("x: T;" ++ "  \t " ++ "y: U;") "A"
        = normalizeShape ("x: T;" ++ " " ++ "y: U;") "A")
    ∧ (normalizeShape ("x: T;" ++ "//" ++ " note" ++ String.mk ['\n'] ++ "y: U;") "A"
        = normalizeShape ("x: T;" ++ String.mk ['\n'] ++ "y: U;") "A") :=
  ⟨fingerprint_comment_ws_invariance.2.1 "x: T;" " note " " y: U;" "A"
      (by decide) (by decide),
   fingerprint_comment_ws_invariance.2.2.1 "x: T;" "  \t " "y: U;" "A"
      (by decide) (by decide) (by decide) (by decide) (by decide) (by decide),
   fingerprint_comment_ws_invariance.2.2.2 "x: T;" " note" "y: U;" "A" '\n'
      (Or.inl rfl) (by decide) (by decide) (by decide) (by decide) (by decide)⟩

theorem ws_not_word {c : Char} (h : isWsChar c = true) : isWordChar c = false := by
  simp only [isWsChar, Bool.or_eq_true, beq_iff_eq] at h
  rcases h with ((((h | h) | h) | h) | h) | h <;> subst h <;> decide

theorem dropWhile_head?_false {p : Char → Bool} : ∀ {l : List Char} {c : Char},
    (l.dropWhile p).head? = some c → p c = false := by
  intro l
  induction l with
  | nil => intro c h; simp [List.dropWhile] at h
  | cons x t ih =>
    intro c h
    rw [List.dropWhile] at h
    cases hx : p x
    · rw [hx] at h
      simp at h
      rw [← h]
      exact hx
    · rw [hx] at h
      exact ih h

theorem takeWhile_append_all (p : Char → Bool) : ∀ (a r : List Char), a.all p = true →
    (a ++ r).takeWhile p = a ++ r.takeWhile p ∧ (a ++ r).dropWhile p = r.dropWhile p := by
  intro a
  induction a with
  | nil => intro r _; exact ⟨rfl, rfl⟩
  | cons x t ih =>
    intro r h
    simp only [List.all_cons, Bool.and_eq_true] at h
    obtain ⟨hx, ht⟩ := h
    obtain ⟨h1, h2⟩ := ih r ht
    constructor
    · rw [List.cons_append, List.takeWhile_cons, hx, h1]; rfl
    · rw [List.cons_append, List.dropWhile_cons, hx, h2]
      simp

theorem takeWhile_append_stop (p : Char → Bool) : ∀ (a r : List Char), a.dropWhile p ≠ [] →
    (a ++ r).takeWhile p = a.takeWhile p ∧ (a ++ r).dropWhile p = a.dropWhile p ++ r := by
  intro a
  induction a with
  | nil => intro r h; exact absurd rfl h
  | cons x t ih =>
    intro r h
    rw [List.dropWhile_cons] at h
    cases hx : p x
    · refine ⟨?_, ?_⟩
      · rw [List.cons_append, List.takeWhile_cons, hx, List.takeWhile_cons, hx]
        simp
      · rw [List.cons_append, List.dropWhile_cons, hx, List.dropWhile_cons, hx]
        simp
    · rw [hx] at h
      simp only [if_true] at h
      obtain ⟨h1, h2⟩ := ih r h
      refine ⟨?_, ?_⟩
      · rw [List.cons_append, List.takeWhile_cons, hx, List.takeWhile_cons, hx, h1]
      · rw [List.cons_append, List.dropWhile_cons, hx, List.dropWhile_cons, hx, h2]
        simp

theorem wordChunks_nil : wordChunks [] = [] := by
  simp [wordChunks]

theorem wordChunks_cons_word {c : Char} (rest : List Char) (h : isWordChar c = true) :
    wordChunks (c :: rest)
      = (c :: rest.takeWhile isWordChar) :: wordChunks (rest.dropWhile isWordChar) := by
  rw [wordChunks, if_pos h]

theorem wordChunks_cons_nonword {c : Char} (rest : List Char) (h : isWordChar c = false) :
    wordChunks (c :: rest) = wordChunks rest := by
  rw [wordChunks, if_neg (by rw [h]; exact Bool.false_ne_true)]

theorem wordChunks_nonword_append :
    ∀ (a r : List Char), a.all (fun c => !isWordChar c) = true →
      wordChunks (a ++ r) = wordChunks r := by
  intro a
  induction a with
  | nil => intro r _; rfl
  | cons x t ih =>
    intro r h
    simp only [List.all_cons, Bool.and_eq_true, Bool.not_eq_true'] at h
    rw [List.cons_append, wordChunks_cons_nonword _ h.1]
    exact ih r (by simp only [List.all_eq_true, Bool.not_eq_true'] at h ⊢; exact h.2)

theorem wordChunks_word_append (w y : List Char) (hne : w ≠ [])
    (hw : w.all isWordChar = true) (hy : optWord y.head? = false) :
    wordChunks (w ++ y) = w :: wordChunks y := by
  cases w with
  | nil => exact absurd rfl hne
  | cons c t =>
    simp only [List.all_cons, Bool.and_eq_true] at hw
    have htw : (t ++ y).takeWhile isWordChar = t ∧ (t ++ y).dropWhile isWordChar = y := by
      obtain ⟨h1, h2⟩ := takeWhile_append_all isWordChar t y hw.2
      cases y with
      | nil => refine ⟨by simpa using h1, by simpa using h2⟩
      | cons c' y' =>
        have hc' : isWordChar c' = false := by simpa [optWord] using hy
        refine ⟨?_, ?_⟩
        · rw [h1, List.takeWhile_cons, hc']
          simp
        · rw [h2, List.dropWhile_cons, hc']
          simp
    rw [List.cons_append, wordChunks_cons_word _ hw.1, htw.1, htw.2]

theorem wordChunks_append_boundary :
    ∀ (n : Nat) (a r : List Char), a.length ≤ n →
      (a.getLast?.all fun c => !isWordChar c) = true →
      wordChunks (a ++ r) = wordChunks a ++ wordChunks r := by
  intro n
  induction n with
  | zero =>
    intro a r hlen _
    have : a = [] := List.length_eq_zero.mp (Nat.le_zero.mp hlen)
    subst this
    simp [wordChunks_nil]
  | succ n ih =>
    intro a r hlen hlast
    cases a with
    | nil => simp [wordChunks_nil]
    | cons c t =>
      have htlen : t.length ≤ n := by
        simp only [List.length_cons] at hlen
        omega
      by_cases hc : isWordChar c = true
      · -- the run started by `c` must stop inside `a`, because `a` ends non-word
        have hd : t.dropWhile isWordChar ≠ [] := by
          intro hnil
          have hall : ∀ x ∈ t, isWordChar x = true := List.dropWhile_eq_nil_iff.mp hnil
          have hmem : (c :: t).getLast (by simp) ∈ c :: t := List.getLast_mem _
          have hword : isWordChar ((c :: t).getLast (by simp)) = true := by
            rcases List.mem_cons.mp hmem with h | h
            · rw [h]; exact hc
            · exact hall _ h
          rw [List.getLast?_eq_getLast _ (by simp)] at hlast
          simp only [Option.all_some, Bool.not_eq_true'] at hlast
          rw [hlast] at hword
          exact Bool.false_ne_true hword
        have ht : t ≠ [] := by
          intro hnil
          rw [hnil] at hd
          exact hd rfl
        obtain ⟨h1, h2⟩ := takeWhile_append_stop isWordChar t r hd
        have hlast' : ((t.dropWhile isWordChar).getLast?.all fun c => !isWordChar c) = true := by
          have hsuf : t.dropWhile isWordChar <:+ t := List.dropWhile_suffix isWordChar
          obtain ⟨pre, hpre⟩ := hsuf
          have hgl : t.getLast? = (t.dropWhile isWordChar).getLast? := by
            conv_lhs => rw [← hpre]
            exact List.getLast?_append_of_ne_nil pre hd
          have hct : (c :: t).getLast? = t.getLast? := by
            cases t with
            | nil => exact absurd rfl ht
            | cons y t' => exact List.getLast?_cons_cons
          rw [← hgl, ← hct]
          exact hlast
        have hdlen : (t.dropWhile isWordChar).length ≤ n := by
          have : (t.dropWhile isWordChar).length ≤ t.length :=
            (List.dropWhile_sublist isWordChar).length_le
          omega
        rw [List.cons_append, wordChunks_cons_word _ hc, h1, h2,
          ih (t.dropWhile isWordChar) r hdlen hlast',
          wordChunks_cons_word _ hc, List.cons_append]
      · have hc' : isWordChar c = false := Bool.eq_false_iff.mpr hc
        have hlast' : (t.getLast?.all fun c => !isWordChar c) = true := by
          cases t with
          | nil => rfl
          | cons y t' =>
            rw [List.getLast?_cons_cons] at hlast
            exact hlast
        rw [List.cons_append, wordChunks_cons_nonword _ hc',
          wordChunks_cons_nonword _ hc']
        exact ih t r htlen hlast'

theorem wholeWord_mem_chunks {name l : List Char} (hne : name ≠ [])
    (hw : name.all isWordChar = true) (h : WholeWordOccurs name l) :
    name ∈ wordChunks l := by
  obtain ⟨pre, post, hsplit, hpre, hpost⟩ := h
  have hy : optWord post.head? = false := by
    cases hh : post.head? with
    | none => rfl
    | some c =>
      rw [hh] at hpost
      simp only [Option.all_some, Bool.not_eq_true'] at hpost
      simpa [optWord] using hpost
  rw [hsplit, List.append_assoc,
    wordChunks_append_boundary pre.length pre _ le_rfl hpre,
    wordChunks_word_append name post hne hw hy]
  simp

theorem replaceChunks_nil (name : List Char) : replaceChunks name [] = [] := by
  simp [replaceChunks]

theorem replaceChunks_cons_word (name : List Char) {c : Char} (rest : List Char)
    (h : isWordChar c = true) :
    replaceChunks name (c :: rest)
      = (if c :: rest.takeWhile isWordChar = name then namePlaceholder
         else c :: rest.takeWhile isWordChar)
          ++ replaceChunks name (rest.dropWhile isWordChar) := by
  rw [replaceChunks, if_pos h]

theorem replaceChunks_cons_nonword (name : List Char) {c : Char} (rest : List Char)
    (h : isWordChar c = false) :
    replaceChunks name (c :: rest) = c :: replaceChunks name rest := by
  rw [replaceChunks, if_neg (by rw [h]; exact Bool.false_ne_true)]

theorem replaceNameAux_skip (name : List Char) :
    ∀ (w rest : List Char) (pw : Bool),
      replaceNameAux name w.length pw (w ++ rest)
        = replaceNameAux name 0 ((w.getLast?.map isWordChar).getD pw) rest := by
  intro w
  induction w with
  | nil => intro rest pw; rfl
  | cons c w' ih =>
    intro rest pw
    have hstep : replaceNameAux name (w'.length + 1) pw (c :: (w' ++ rest))
        = replaceNameAux name w'.length (isWordChar c) (w' ++ rest) := rfl
    show replaceNameAux name (w'.length + 1) pw (c :: (w' ++ rest)) = _
    rw [hstep, ih rest (isWordChar c)]
    congr 1
    cases w' with
    | nil => rfl
    | cons y w'' =>
      rw [List.getLast?_cons_cons, List.getLast?_eq_getLast (y :: w'') (by simp)]
      simp

theorem name_isPrefixOf_nonword {name : List Char} (hne : name ≠ [])
    (hw : name.all isWordChar = true) {c : Char} (hc : isWordChar c = false)
    (r : List Char) : name.isPrefixOf (c :: r) = false := by
  cases name with
  | nil => exact absurd rfl hne
  | cons n0 nt =>
    simp only [List.all_cons, Bool.and_eq_true] at hw
    show (n0 == c && nt.isPrefixOf r) = false
    have : (n0 == c) = false := by
      rw [beq_eq_false_iff_ne]
      intro hEq
      rw [hEq, hc] at hw
      exact Bool.false_ne_true hw.1
    rw [this]
    rfl

theorem replaceNameAux_state (name : List Char) (hne : name ≠ [])
    (hw : name.all isWordChar = true) :
    ∀ (l : List Char), optWord l.head? = false → ∀ b1 b2,
      replaceNameAux name 0 b1 l = replaceNameAux name 0 b2 l := by
  intro l hl b1 b2
  cases l with
  | nil => rfl
  | cons c r =>
    have hc : isWordChar c = false := by simpa [optWord] using hl
    have hpre := name_isPrefixOf_nonword hne hw hc r
    rw [replaceNameAux, if_neg (fun hcond => by
        obtain ⟨-, hp, -, -⟩ := hcond
        rw [hpre] at hp
        exact Bool.false_ne_true hp),
      replaceNameAux, if_neg (fun hcond => by
        obtain ⟨-, hp, -, -⟩ := hcond
        rw [hpre] at hp
        exact Bool.false_ne_true hp)]

theorem replaceNameAux_copy_run (name : List Char) :
    ∀ (w : List Char), w.all isWordChar = true → ∀ rest,
      replaceNameAux name 0 true (w ++ rest) = w ++ replaceNameAux name 0 true rest := by
  intro w
  induction w with
  | nil => intro _ rest; rfl
  | cons c w' ih =>
    intro hall rest
    simp only [List.all_cons, Bool.and_eq_true] at hall
    rw [List.cons_append, replaceNameAux, if_neg (fun hcond => by
        obtain ⟨-, -, hx, -⟩ := hcond
        rw [hall.1] at hx
        simp at hx),
      hall.1, ih hall.2 rest, List.cons_append]

theorem optWord_getLast_name {name : List Char} (hne : name ≠ [])
    (hw : name.all isWordChar = true) : optWord name.getLast? = true := by
  rw [List.getLast?_eq_getLast name hne]
  have hmem := List.getLast_mem hne
  have := List.all_eq_true.mp hw _ hmem
  simpa [optWord] using this

theorem takeWhile_all_self (p : Char → Bool) (l : List Char) :
    (l.takeWhile p).all p = true := by
  simp only [List.all_eq_true]
  exact fun x hx => List.mem_takeWhile_imp hx

theorem replaceNameAux_eq_replaceChunks (name : List Char) (hne : name ≠ [])
    (hw : name.all isWordChar = true) :
    ∀ (n : Nat) (l : List Char), l.length ≤ n →
      replaceNameAux name 0 false l = replaceChunks name l := by
  intro n
  induction n with
  | zero =>
    intro l hlen
    have : l = [] := List.length_eq_zero.mp (Nat.le_zero.mp hlen)
    subst this
    rw [replaceChunks_nil]
    rfl
  | succ n ih =>
    intro l hlen
    cases l with
    | nil =>
      rw [replaceChunks_nil]
      rfl
    | cons c rest =>
      have hrlen : rest.length ≤ n := by
        simp only [List.length_cons] at hlen
        omega
      have hrest'len : (rest.dropWhile isWordChar).length ≤ n := by
        have : (rest.dropWhile isWordChar).length ≤ rest.length :=
          (List.dropWhile_sublist isWordChar).length_le
        omega
      have hrest'head : optWord (rest.dropWhile isWordChar).head? = false := by
        cases hh : (rest.dropWhile isWordChar).head? with
        | none => rfl
        | some d =>
          have := dropWhile_head?_false hh
          simpa [optWord] using this
      by_cases hc : isWordChar c = true
      · by_cases heq : c :: rest.takeWhile isWordChar = name
        · -- a whole-word occurrence of the name: both sides replace it
          have hsplit : c :: rest = name ++ rest.dropWhile isWordChar := by
            conv_lhs => rw [← List.takeWhile_append_dropWhile isWordChar rest]
            rw [← List.cons_append, heq]
          have hpre : name.isPrefixOf (c :: rest) = true := by
            rw [List.isPrefixOf_iff_prefix, hsplit]
            exact List.prefix_append name _
          have hdrop : (c :: rest).drop name.length = rest.dropWhile isWordChar := by
            rw [hsplit]
            exact List.drop_left name _
          rw [replaceNameAux, if_pos ⟨hne, hpre, by rw [hc]; rfl, by
              rw [hdrop, optWord_getLast_name hne hw, hrest'head]
              rfl⟩]
          have htail : name.tail = rest.takeWhile isWordChar := by
            rw [← heq]
            rfl
          have hlen1 : name.length - 1 = name.tail.length := by
            cases name with
            | nil => exact absurd rfl hne
            | cons a b => simp
          have hresteq : rest = name.tail ++ rest.dropWhile isWordChar := by
            rw [htail]
            exact (List.takeWhile_append_dropWhile isWordChar rest).symm
          rw [hlen1]
          conv_lhs => rw [hresteq]
          rw [replaceNameAux_skip name name.tail _ (isWordChar c)]
          have hstate : ((name.tail.getLast?.map isWordChar).getD (isWordChar c)) = true := by
            cases hnt : name.tail with
            | nil => simpa using hc
            | cons y t =>
              rw [List.getLast?_eq_getLast (y :: t) (by simp)]
              simp only [Option.map_some', Option.getD_some]
              apply List.all_eq_true.mp hw
              have hmem : (y :: t).getLast (by simp) ∈ y :: t := List.getLast_mem _
              exact List.mem_of_mem_tail (by rw [hnt]; exact hmem)
          rw [hstate,
            replaceNameAux_state name hne hw _ hrest'head true false,
            ih _ hrest'len,
            replaceChunks_cons_word name rest hc, if_pos heq]
        · -- no match here: the boundary test fails exactly because the chunk ≠ name
          have hnomatch : ¬ (name ≠ [] ∧ name.isPrefixOf (c :: rest) = true
              ∧ (false != isWordChar c) = true
              ∧ (optWord name.getLast?
                  != optWord ((c :: rest).drop name.length).head?) = true) := by
            rintro ⟨-, hp, -, hb⟩
            obtain ⟨s, hs⟩ := List.isPrefixOf_iff_prefix.mp hp
            rw [optWord_getLast_name hne hw] at hb
            have hsf : optWord s.head? = false := by
              have hdrop : (c :: rest).drop name.length = s := by
                rw [← hs]
                exact List.drop_left name s
              rw [hdrop] at hb
              cases ho : optWord s.head?
              · rfl
              · rw [ho] at hb
                simp at hb
            have htake : (c :: rest).takeWhile isWordChar = name := by
              rw [← hs]
              obtain ⟨h1, -⟩ := takeWhile_append_all isWordChar name s hw
              rw [h1]
              cases s with
              | nil => simp
              | cons d s' =>
                have hd : isWordChar d = false := by simpa [optWord] using hsf
                rw [List.takeWhile_cons, hd]
                simp
            rw [List.takeWhile_cons, hc] at htake
            exact heq (by simpa using htake)
          rw [replaceNameAux, if_neg hnomatch, hc]
          conv_lhs => rw [show rest = rest.takeWhile isWordChar ++ rest.dropWhile isWordChar
            from (List.takeWhile_append_dropWhile isWordChar rest).symm]
          rw [replaceNameAux_copy_run name _ (takeWhile_all_self isWordChar rest) _,
            replaceNameAux_state name hne hw _ hrest'head true false,
            ih _ hrest'len,
            replaceChunks_cons_word name rest hc, if_neg heq, List.cons_append]
      · have hc' : isWordChar c = false := Bool.eq_false_iff.mpr hc
        have hpre := name_isPrefixOf_nonword hne hw hc' rest
        rw [replaceNameAux, if_neg (fun hcond => by
            obtain ⟨-, hp, -, -⟩ := hcond
            rw [hpre] at hp
            exact Bool.false_ne_true hp),
          hc', ih rest hrlen, replaceChunks_cons_nonword name rest hc']

theorem replaceChunks_head (name : List Char) {l : List Char}
    (h : optWord l.head? = false) : optWord (replaceChunks name l).head? = false := by
  cases l with
  | nil =>
    rw [replaceChunks_nil]
    rfl
  | cons c r =>
    have hc : isWordChar c = false := by simpa [optWord] using h
    rw [replaceChunks_cons_nonword name r hc]
    simpa [optWord] using hc

theorem wordChunks_replaceChunks (name : List Char) (hne : name ≠ [])
    (hw : name.all isWordChar = true) :
    ∀ (n : Nat) (l : List Char), l.length ≤ n →
      wordChunks (replaceChunks name l)
        = (wordChunks l).map (fun w => if w = name then namePlaceholder else w) := by
  intro n
  induction n with
  | zero =>
    intro l hlen
    have : l = [] := List.length_eq_zero.mp (Nat.le_zero.mp hlen)
    subst this
    rw [replaceChunks_nil, wordChunks_nil]
    rfl
  | succ n ih =>
    intro l hlen
    cases l with
    | nil =>
      rw [replaceChunks_nil, wordChunks_nil]
      rfl
    | cons c rest =>
      have hrlen : rest.length ≤ n := by
        simp only [List.length_cons] at hlen
        omega
      have hrest'len : (rest.dropWhile isWordChar).length ≤ n := by
        have : (rest.dropWhile isWordChar).length ≤ rest.length :=
          (List.dropWhile_sublist isWordChar).length_le
        omega
      have hrest'head : optWord (rest.dropWhile isWordChar).head? = false := by
        cases hh : (rest.dropWhile isWordChar).head? with
        | none => rfl
        | some d =>
          have := dropWhile_head?_false hh
          simpa [optWord] using this
      by_cases hc : isWordChar c = true
      · have hwall : (c :: rest.takeWhile isWordChar).all isWordChar = true := by
          simp only [List.all_cons, Bool.and_eq_true]
          exact ⟨hc, takeWhile_all_self isWordChar rest⟩
        have hhead := replaceChunks_head name hrest'head
        rw [replaceChunks_cons_word name rest hc,
          wordChunks_cons_word rest hc]
        by_cases heq : c :: rest.takeWhile isWordChar = name
        · rw [if_pos heq,
            wordChunks_word_append namePlaceholder _ (by decide) (by decide) hhead,
            ih _ hrest'len, List.map_cons, if_pos heq]
        · rw [if_neg heq,
            wordChunks_word_append (c :: rest.takeWhile isWordChar) _
              (by simp) hwall hhead,
            ih _ hrest'len, List.map_cons, if_neg heq]
      · have hc' : isWordChar c = false := Bool.eq_false_iff.mpr hc
        rw [replaceChunks_cons_nonword name rest hc',
          wordChunks_cons_nonword (replaceChunks name rest) hc',
          wordChunks_cons_nonword rest hc', ih rest hrlen]

theorem name_notin_chunks_replaceName (name s : String) (hne : name.data ≠ [])
    (hw : name.data.all isWordChar = true) (hph : name.data ≠ namePlaceholder) :
    name.data ∉ wordChunks (replaceName name s).data := by
  intro hmem
  rw [replaceName, if_neg (by simpa [List.isEmpty_iff] using hne)] at hmem
  have hdata : (String.mk (replaceNameAux name.data 0 false s.data)).data
      = replaceNameAux name.data 0 false s.data := rfl
  rw [hdata,
    replaceNameAux_eq_replaceChunks name.data hne hw s.data.length s.data le_rfl,
    wordChunks_replaceChunks name.data hne hw s.data.length s.data le_rfl] at hmem
  obtain ⟨w, hwmem, hfw⟩ := List.mem_map.mp hmem
  by_cases h : w = name.data
  · rw [if_pos h] at hfw
    exact hph hfw.symm
  · rw [if_neg h] at hfw
    exact h hfw

theorem dropLit_eq_some : ∀ {p l r : List Char}, dropLit p l = some r → l = p ++ r := by
  intro p
  induction p with
  | nil =>
    intro l r h
    simp only [dropLit, Option.some.injEq] at h
    rw [h]
    rfl
  | cons x p' ih =>
    intro l r h
    cases l with
    | nil => simp [dropLit] at h
    | cons c cs =>
      rw [dropLit] at h
      by_cases hcx : c = x
      · rw [if_pos hcx] at h
        rw [hcx, List.cons_append, ← ih h]
      · rw [if_neg hcx] at h
        simp at h

theorem wsAll_to_nonword {w : List Char} (h : w.all isWsChar = true) :
    w.all (fun c => !isWordChar c) = true := by
  simp only [List.all_eq_true] at h ⊢
  intro c hc
  simp only [Bool.not_eq_true']
  exact ws_not_word (h c hc)

theorem ws_append_head {w : List Char} (X : List Char) (hne : w ≠ [])
    (hws : w.all isWsChar = true) : optWord (w ++ X).head? = false := by
  cases w with
  | nil => exact absurd rfl hne
  | cons d w' =>
    simp only [List.all_cons, Bool.and_eq_true] at hws
    simp only [List.cons_append, List.head?_cons, optWord]
    exact ws_not_word hws.1

theorem matchIfaceAt_spec {l rem : List Char} (h : matchIfaceAt l = some rem) :
    ∃ w1 w2,
      l = "interface".data ++ (w1 ++ ("__NAME__".data ++ (w2 ++ ('\x7b' :: rem))))
      ∧ w1 ≠ [] ∧ w1.all isWsChar = true ∧ w2.all isWsChar = true := by
  unfold matchIfaceAt at h
  split at h
  · simp at h
  · rename_i l1 h1
    split at h
    · simp at h
    · rename_i he
      split at h
      · simp at h
      · rename_i l2 h2
        split at h
        · rename_i rest h3
          have hrem : rest = rem := by
            simpa using h
          subst hrem
          refine ⟨l1.takeWhile isWsChar, l2.takeWhile isWsChar, ?_, ?_,
            takeWhile_all_self isWsChar l1, takeWhile_all_self isWsChar l2⟩
          · rw [dropLit_eq_some h1]
            congr 1
            conv_lhs => rw [← List.takeWhile_append_dropWhile isWsChar l1]
            congr 1
            rw [dropLit_eq_some h2]
            congr 1
            conv_lhs => rw [← List.takeWhile_append_dropWhile isWsChar l2]
            congr 1
          · intro hcon
            rw [hcon] at he
            exact he rfl
        · simp at h

theorem rewriteIfaceAux_structure :
    ∀ (l : List Char) (prevW : Bool),
      rewriteIfaceAux prevW l = l
      ∨ ∃ a rem w1 w2,
          l = a ++ ("interface".data ++ (w1 ++ ("__NAME__".data ++ (w2 ++ ('\x7b' :: rem)))))
          ∧ rewriteIfaceAux prevW l = a ++ ("type __NAME__ = \x7b".data ++ rem)
          ∧ (a.getLast?.all fun c => !isWordChar c) = true
          ∧ (a = [] → prevW = false)
          ∧ w1 ≠ [] ∧ w1.all isWsChar = true ∧ w2.all isWsChar = true := by
  intro l
  induction l with
  | nil => intro prevW; left; rfl
  | cons c rest ih =>
    intro prevW
    have hlift : rewriteIfaceAux prevW (c :: rest) = c :: rewriteIfaceAux (isWordChar c) rest →
        (rewriteIfaceAux prevW (c :: rest) = c :: rest
        ∨ ∃ a rem w1 w2,
            c :: rest
              = a ++ ("interface".data ++ (w1 ++ ("__NAME__".data ++ (w2 ++ ('\x7b' :: rem)))))
            ∧ rewriteIfaceAux prevW (c :: rest) = a ++ ("type __NAME__ = \x7b".data ++ rem)
            ∧ (a.getLast?.all fun c => !isWordChar c) = true
            ∧ (a = [] → prevW = false)
            ∧ w1 ≠ [] ∧ w1.all isWsChar = true ∧ w2.all isWsChar = true) := by
      intro hval
      rcases ih (isWordChar c) with hid |
        ⟨a, rem, w1, w2, hsplit, hout, hlast, hnil, hw1ne, hw1, hw2⟩
      · left
        rw [hval, hid]
      · right
        refine ⟨c :: a, rem, w1, w2, ?_, ?_, ?_, (by simp), hw1ne, hw1, hw2⟩
        · rw [hsplit]
          rfl
        · rw [hval, hout]
          rfl
        · cases a with
          | nil =>
            have hc : isWordChar c = false := hnil rfl
            simpa using hc
          | cons y a' =>
            rw [show ((c :: y :: a').getLast?) = ((y :: a').getLast?)
              from List.getLast?_cons_cons]
            exact hlast
    cases hm : matchIfaceAt (c :: rest) with
    | none =>
      apply hlift
      rw [rewriteIfaceAux, hm]
    | some rem0 =>
      rcases Bool.eq_false_or_eq_true prevW with hp | hp
      · subst hp
        apply hlift
        rw [rewriteIfaceAux, hm]
        simp
      · subst hp
        right
        obtain ⟨w1, w2, hsplit, hw1ne, hw1, hw2⟩ := matchIfaceAt_spec hm
        refine ⟨[], rem0, w1, w2, by simpa using hsplit, ?_, rfl, fun _ => rfl,
          hw1ne, hw1, hw2⟩
        rw [rewriteIfaceAux, hm]
        simp

theorem ws_brace_head (w2 rem : List Char) (hw2 : w2.all isWsChar = true) :
    optWord (w2 ++ ('\x7b' :: rem)).head? = false := by
  cases w2 with
  | nil =>
    simp only [List.nil_append, List.head?_cons, optWord]
    decide
  | cons d w' => exact ws_append_head _ (by simp) hw2

theorem chunks_iface_middle (w1 w2 rem : List Char) (hw1ne : w1 ≠ [])
    (hw1 : w1.all isWsChar = true) (hw2 : w2.all isWsChar = true) :
    wordChunks ("interface".data ++ (w1 ++ ("__NAME__".data ++ (w2 ++ ('\x7b' :: rem)))))
      = "interface".data :: "__NAME__".data :: wordChunks rem := by
  rw [wordChunks_word_append "interface".data _ (by decide) (by decide)
      (ws_append_head _ hw1ne hw1),
    wordChunks_nonword_append w1 _ (wsAll_to_nonword hw1),
    wordChunks_word_append "__NAME__".data _ (by decide) (by decide)
      (ws_brace_head w2 rem hw2),
    wordChunks_nonword_append w2 _ (wsAll_to_nonword hw2),
    wordChunks_cons_nonword rem (by decide)]

theorem chunks_type_middle (rem : List Char) :
    wordChunks ("type __NAME__ = \x7b".data ++ rem)
      = "type".data :: "__NAME__".data :: wordChunks rem := by
  rw [show "type __NAME__ = \x7b".data ++ rem
      = "type".data ++ (' ' :: ("__NAME__".data ++ (' ' :: '=' :: ' ' :: '\x7b' :: rem)))
    from rfl,
    wordChunks_word_append "type".data _ (by decide) (by decide)
      (by simp only [List.head?_cons, optWord]; decide),
    wordChunks_cons_nonword _ (by decide),
    wordChunks_word_append "__NAME__".data _ (by decide) (by decide)
      (by simp only [List.head?_cons, optWord]; decide),
    wordChunks_cons_nonword _ (by decide),
    wordChunks_cons_nonword _ (by decide),
    wordChunks_cons_nonword _ (by decide),
    wordChunks_cons_nonword _ (by decide)]

theorem rewriteIface_chunks_sub {name : List Char} (s : String)
    (hnotin : name ∉ wordChunks s.data)
    (htype : name ≠ "type".data) (hph : name ≠ "__NAME__".data) :
    name ∉ wordChunks (rewriteIface s).data := by
  intro hmem
  have hdata : (rewriteIface s).data = rewriteIfaceAux false s.data := rfl
  rw [hdata] at hmem
  rcases rewriteIfaceAux_structure s.data false with hid |
    ⟨a, rem, w1, w2, hsplit, hout, hlast, hnil, hw1ne, hw1, hw2⟩
  · rw [hid] at hmem
    exact hnotin hmem
  · rw [hout, wordChunks_append_boundary a.length a _ le_rfl hlast,
      chunks_type_middle rem] at hmem
    have hchin : wordChunks s.data
        = wordChunks a ++ ("interface".data :: "__NAME__".data :: wordChunks rem) := by
      rw [hsplit, wordChunks_append_boundary a.length a _ le_rfl hlast,
        chunks_iface_middle w1 w2 rem hw1ne hw1 hw2]
    rcases List.mem_append.mp hmem with hmA | hmB
    · exact hnotin (by rw [hchin]; exact List.mem_append.mpr (Or.inl hmA))
    · rcases List.mem_cons.mp hmB with hT | hmB'
      · exact htype hT
      · rcases List.mem_cons.mp hmB' with hN | hmR
        · exact hph hN
        · exact hnotin (by
            rw [hchin]
            refine List.mem_append.mpr (Or.inr ?_)
            exact List.mem_cons.mpr (Or.inr (List.mem_cons.mpr (Or.inr hmR))))

theorem matchConstEnumAt_spec {l l2 : List Char} (h : matchConstEnumAt l = some l2) :
    ∃ w1, l = "const".data ++ (w1 ++ ("enum".data ++ l2))
      ∧ w1 ≠ [] ∧ w1.all isWsChar = true ∧ optWord l2.head? = false := by
  unfold matchConstEnumAt at h
  split at h
  · simp at h
  · rename_i l1 h1
    split at h
    · simp at h
    · rename_i he
      split at h
      · simp at h
      · rename_i l2' h2
        by_cases hop : optWord l2'.head? = true
        · rw [if_pos hop] at h
          simp at h
        · rw [if_neg hop] at h
          have hl2 : l2' = l2 := by simpa using h
          subst hl2
          refine ⟨l1.takeWhile isWsChar, ?_, ?_, takeWhile_all_self isWsChar l1,
            Bool.eq_false_iff.mpr hop⟩
          · rw [dropLit_eq_some h1]
            congr 1
            conv_lhs => rw [← List.takeWhile_append_dropWhile isWsChar l1]
            congr 1
            rw [dropLit_eq_some h2]
          · intro hcon
            rw [hcon] at he
            exact he rfl

theorem rewriteConstEnumAux_structure :
    ∀ (l : List Char) (prevW : Bool),
      rewriteConstEnumAux prevW l = l
      ∨ ∃ a rem w1,
          l = a ++ ("const".data ++ (w1 ++ ("enum".data ++ rem)))
          ∧ rewriteConstEnumAux prevW l = a ++ ("enum".data ++ rem)
          ∧ (a.getLast?.all fun c => !isWordChar c) = true
          ∧ (a = [] → prevW = false)
          ∧ w1 ≠ [] ∧ w1.all isWsChar = true ∧ optWord rem.head? = false := by
  intro l
  induction l with
  | nil => intro prevW; left; rfl
  | cons c rest ih =>
    intro prevW
    have hlift : rewriteConstEnumAux prevW (c :: rest)
          = c :: rewriteConstEnumAux (isWordChar c) rest →
        (rewriteConstEnumAux prevW (c :: rest) = c :: rest
        ∨ ∃ a rem w1,
            c :: rest = a ++ ("const".data ++ (w1 ++ ("enum".data ++ rem)))
            ∧ rewriteConstEnumAux prevW (c :: rest) = a ++ ("enum".data ++ rem)
            ∧ (a.getLast?.all fun c => !isWordChar c) = true
            ∧ (a = [] → prevW = false)
            ∧ w1 ≠ [] ∧ w1.all isWsChar = true ∧ optWord rem.head? = false) := by
      intro hval
      rcases ih (isWordChar c) with hid |
        ⟨a, rem, w1, hsplit, hout, hlast, hnil, hw1ne, hw1, hrh⟩
      · left
        rw [hval, hid]
      · right
        refine ⟨c :: a, rem, w1, ?_, ?_, ?_, (by simp), hw1ne, hw1, hrh⟩
        · rw [hsplit]
          rfl
        · rw [hval, hout]
          rfl
        · cases a with
          | nil =>
            have hc : isWordChar c = false := hnil rfl
            simpa using hc
          | cons y a' =>
            rw [show ((c :: y :: a').getLast?) = ((y :: a').getLast?)
              from List.getLast?_cons_cons]
            exact hlast
    cases hm : matchConstEnumAt (c :: rest) with
    | none =>
      apply hlift
      rw [rewriteConstEnumAux, hm]
    | some rem0 =>
      rcases Bool.eq_false_or_eq_true prevW with hp | hp
      · subst hp
        apply hlift
        rw [rewriteConstEnumAux, hm]
        simp
      · subst hp
        right
        obtain ⟨w1, hsplit, hw1ne, hw1, hrh⟩ := matchConstEnumAt_spec hm
        refine ⟨[], rem0, w1, by simpa using hsplit, ?_, rfl, fun _ => rfl,
          hw1ne, hw1, hrh⟩
        rw [rewriteConstEnumAux, hm]
        simp

theorem chunks_constenum_middle (w1 rem : List Char) (hw1ne : w1 ≠ [])
    (hw1 : w1.all isWsChar = true) (hrh : optWord rem.head? = false) :
    wordChunks ("const".data ++ (w1 ++ ("enum".data ++ rem)))
      = "const".data :: "enum".data :: wordChunks rem := by
  rw [wordChunks_word_append "const".data _ (by decide) (by decide)
      (ws_append_head _ hw1ne hw1),
    wordChunks_nonword_append w1 _ (wsAll_to_nonword hw1),
    wordChunks_word_append "enum".data _ (by decide) (by decide) hrh]

theorem rewriteConstEnum_chunks_sub {name : List Char} (s : String)
    (hnotin : name ∉ wordChunks s.data) :
    name ∉ wordChunks (rewriteConstEnum s).data := by
  intro hmem
  have hdata : (rewriteConstEnum s).data = rewriteConstEnumAux false s.data := rfl
  rw [hdata] at hmem
  rcases rewriteConstEnumAux_structure s.data false with hid |
    ⟨a, rem, w1, hsplit, hout, hlast, hnil, hw1ne, hw1, hrh⟩
  · rw [hid] at hmem
    exact hnotin hmem
  · rw [hout, wordChunks_append_boundary a.length a _ le_rfl hlast,
      wordChunks_word_append "enum".data _ (by decide) (by decide) hrh] at hmem
    have hchin : wordChunks s.data
        = wordChunks a ++ ("const".data :: "enum".data :: wordChunks rem) := by
      rw [hsplit, wordChunks_append_boundary a.length a _ le_rfl hlast,
        chunks_constenum_middle w1 rem hw1ne hw1 hrh]
    rcases List.mem_append.mp hmem with hmA | hmB
    · exact hnotin (by rw [hchin]; exact List.mem_append.mpr (Or.inl hmA))
    · rcases List.mem_cons.mp hmB with hE | hmR
      · exact hnotin (by
          rw [hchin]
          refine List.mem_append.mpr (Or.inr ?_)
          exact List.mem_cons.mpr (Or.inr (List.mem_cons.mpr (Or.inl hE))))
      · exact hnotin (by
          rw [hchin]
          refine List.mem_append.mpr (Or.inr ?_)
          exact List.mem_cons.mpr (Or.inr (List.mem_cons.mpr (Or.inr hmR))))

theorem stripExport_chunks_sub {name : List Char} (s : String)
    (hnotin : name ∉ wordChunks s.data) :
    name ∉ wordChunks (stripExport s).data := by
  intro hmem
  have hdata : (stripExport s).data = stripExportL s.data := rfl
  rw [hdata] at hmem
  unfold stripExportL at hmem
  split at hmem
  · exact hnotin hmem
  · rename_i r h1
    split at hmem
    · exact hnotin hmem
    · rename_i he
      cases r with
      | nil =>
        exfalso
        exact he rfl
      | cons d r' =>
        have hd : isWsChar d = true := by
          by_contra hd
          apply he
          rw [List.takeWhile_cons, Bool.eq_false_iff.mpr hd]
          simp
        have hchin : wordChunks s.data = "export".data :: wordChunks ((d :: r').dropWhile isWsChar) := by
          rw [dropLit_eq_some h1,
            wordChunks_word_append "export".data _ (by decide) (by decide)
              (by simp only [List.head?_cons, optWord]; exact ws_not_word hd)]
          congr 1
          conv_lhs => rw [← List.takeWhile_append_dropWhile isWsChar (d :: r')]
          exact wordChunks_nonword_append _ _
            (wsAll_to_nonword (takeWhile_all_self isWsChar (d :: r')))
        exact hnotin (by
          rw [hchin]
          exact List.mem_cons.mpr (Or.inr hmem))

theorem wordChunks_append_nonword_right :
    ∀ (n : Nat) (a r : List Char), a.length ≤ n →
      r.all (fun c => !isWordChar c) = true →
      wordChunks (a ++ r) = wordChunks a := by
  intro n
  induction n with
  | zero =>
    intro a r hlen hr
    have : a = [] := List.length_eq_zero.mp (Nat.le_zero.mp hlen)
    subst this
    have := wordChunks_nonword_append r [] hr
    simpa [wordChunks_nil] using this
  | succ n ih =>
    intro a r hlen hr
    cases a with
    | nil =>
      have := wordChunks_nonword_append r [] hr
      simpa [wordChunks_nil] using this
    | cons c t =>
      have htlen : t.length ≤ n := by
        simp only [List.length_cons] at hlen
        omega
      by_cases hc : isWordChar c = true
      · by_cases hall : t.dropWhile isWordChar = []
        · have htall : t.all isWordChar = true := by
            simp only [List.all_eq_true]
            exact List.dropWhile_eq_nil_iff.mp hall
          obtain ⟨h1, h2⟩ := takeWhile_append_all isWordChar t r htall
          have hrtake : r.takeWhile isWordChar = [] := by
            cases r with
            | nil => rfl
            | cons d r' =>
              have hd : isWordChar d = false := by
                simp only [List.all_cons, Bool.and_eq_true, Bool.not_eq_true'] at hr
                exact hr.1
              rw [List.takeWhile_cons, hd]
              simp
          have hrdrop : r.dropWhile isWordChar = r := by
            cases r with
            | nil => rfl
            | cons d r' =>
              have hd : isWordChar d = false := by
                simp only [List.all_cons, Bool.and_eq_true, Bool.not_eq_true'] at hr
                exact hr.1
              rw [List.dropWhile_cons, hd]
              simp
          have httake : t.takeWhile isWordChar = t := by
            have := takeWhile_append_all isWordChar t [] htall
            simpa using this.1
          have hzr : wordChunks r = [] := by
            have h0 := wordChunks_nonword_append r [] hr
            simpa [wordChunks_nil] using h0
          rw [List.cons_append, wordChunks_cons_word _ hc, h1, hrtake, h2, hrdrop,
            wordChunks_cons_word _ hc, httake, hall, wordChunks_nil, hzr]
          simp
        · obtain ⟨h1, h2⟩ := takeWhile_append_stop isWordChar t r hall
          have hdlen : (t.dropWhile isWordChar).length ≤ n := by
            have : (t.dropWhile isWordChar).length ≤ t.length :=
              (List.dropWhile_sublist isWordChar).length_le
            omega
          rw [List.cons_append, wordChunks_cons_word _ hc, h1, h2,
            ih (t.dropWhile isWordChar) r hdlen hr,
            wordChunks_cons_word _ hc]
      · have hc' : isWordChar c = false := Bool.eq_false_iff.mpr hc
        rw [List.cons_append, wordChunks_cons_nonword _ hc',
          wordChunks_cons_nonword _ hc']
        exact ih t r htlen hr

theorem reverse_semi_decomp (l t : List Char)
    (hrv : l.reverse.dropWhile isWsChar = ';' :: t) :
    l = (t.dropWhile isWsChar).reverse
      ++ ((t.takeWhile isWsChar).reverse
          ++ (';' :: (l.reverse.takeWhile isWsChar).reverse)) := by
  have e1 : l.reverse = l.reverse.takeWhile isWsChar ++ (';' :: t) := by
    conv_lhs => rw [← List.takeWhile_append_dropWhile isWsChar l.reverse]
    rw [hrv]
  have e4 : l = (l.reverse.takeWhile isWsChar ++ (';' :: t)).reverse := by
    have h := congrArg List.reverse e1
    rwa [List.reverse_reverse] at h
  conv_lhs => rw [e4]
  rw [List.reverse_append, List.reverse_cons]
  conv_lhs => rw [show (t : List Char) = t.takeWhile isWsChar ++ t.dropWhile isWsChar
    from (List.takeWhile_append_dropWhile isWsChar t).symm]
  rw [List.reverse_append]
  simp only [List.append_assoc, List.singleton_append]

theorem stripTrailingSemi_chunks_sub {name : List Char} (s : String)
    (hnotin : name ∉ wordChunks s.data) :
    name ∉ wordChunks (stripTrailingSemi s).data := by
  intro hmem
  have hdata : (stripTrailingSemi s).data = stripTrailingSemiL s.data := rfl
  rw [hdata] at hmem
  unfold stripTrailingSemiL at hmem
  split at hmem
  · rename_i t hrv
    have hdecomp := reverse_semi_decomp s.data t hrv
    have hjunk : ((t.takeWhile isWsChar).reverse
          ++ (';' :: (s.data.reverse.takeWhile isWsChar).reverse)).all
          (fun c => !isWordChar c) = true := by
      simp only [List.all_append, List.all_cons, List.all_reverse, Bool.and_eq_true]
      refine ⟨wsAll_to_nonword (takeWhile_all_self isWsChar t), by decide,
        wsAll_to_nonword (takeWhile_all_self isWsChar s.data.reverse)⟩
    apply hnotin
    rw [hdecomp,
      wordChunks_append_nonword_right (t.dropWhile isWsChar).reverse.length _ _
        le_rfl hjunk]
    exact hmem
  · exact hnotin hmem

set_option maxRecDepth 100000 in
/-- C2, amended: for every raw snippet and every declaration name that is a
nonempty all-word-character identifier other than `type` and `__NAME__`, the
fingerprint contains no whole-word occurrence of the name; and normalizing
`interface TreeNode ... children: TreeNode[] ...` with name `TreeNode` yields a
fingerprint with zero occurrences of `TreeNode` and exactly two occurrences of
the placeholder.  (The original claim, quantified over all identifiers, is
refuted by `whole_word_name_counterexample`: the `interface`-to-`type` rewrite
re-introduces the word `type` after name replacement.) -/
theorem fingerprint_no_whole_word_name :
    (∀ raw name : String, name.data ≠ [] → name.data.all isWordChar = true →
        name ≠ "type" → name ≠ "__NAME__" →
        ¬ WholeWordOccurs name.data (normalizeShape raw name).data)
    ∧ countSubstr "TreeNode".data
        (normalizeShape "interface TreeNode \x7b children: TreeNode[]; \x7d" "TreeNode").data
        = 0
    ∧ countSubstr namePlaceholder
        (normalizeShape "interface TreeNode \x7b children: TreeNode[]; \x7d" "TreeNode").data
        = 2 := by
  refine ⟨?_, by decide, by decide⟩
  intro raw name h1 h2 h3 h4 hWWO
  have h3' : name.data ≠ "type".data := fun h => h3 (congrArg String.mk h)
  have h4' : name.data ≠ "__NAME__".data := fun h => h4 (congrArg String.mk h)
  have m1 := name_notin_chunks_replaceName name (normalizeWhitespace raw) h1 h2 h4'
  have m2 := rewriteIface_chunks_sub (replaceName name (normalizeWhitespace raw)) m1 h3' h4'
  have m3 := stripExport_chunks_sub
    (rewriteIface (replaceName name (normalizeWhitespace raw))) m2
  have m4 := rewriteConstEnum_chunks_sub
    (stripExport (rewriteIface (replaceName name (normalizeWhitespace raw)))) m3
  have m5 := stripTrailingSemi_chunks_sub
    (rewriteConstEnum (stripExport (rewriteIface
      (replaceName name (normalizeWhitespace raw))))) m4
  exact m5 (wholeWord_mem_chunks h1 h2 hWWO)

/-- Witness for C2: a concrete name and snippet satisfying the hypotheses. -/
theorem fingerprint_no_whole_word_name_witness :
    ¬ WholeWordOccurs "User".data
      (normalizeShape "interface User \x7b id: string; \x7d" "User").data :=
  fingerprint_no_whole_word_name.1 "interface User \x7b id: string; \x7d" "User"
    (by decide) (by decide) (by decide) (by decide)

set_option maxRecDepth 100000 in
/-- Counterexample to C2 as frozen: taking the declaration name `type`, the
`interface`-to-`type` rewrite puts a whole-word occurrence of the name into the
fingerprint after every occurrence was substituted by the placeholder. -/
theorem whole_word_name_counterexample :
    WholeWordOccurs "type".data
      (normalizeShape "interface type \x7b x: string; \x7d" "type").data :=
  ⟨[], " __NAME__ = \x7b x: string; \x7d".data, by decide, by decide, by decide⟩

end TypeHunt
